import Mathlib

/-!
# Verification of the generic graph-search core (BFS, DFS, A*)

Shallow embedding of the repository's search algorithms:

* the `Problem` abstraction (lab1 notebook, lab2 notebook),
* `BFSAgent.bfs` (lab1 notebook, "Task 1"),
* `DFSAgent.dfs` (lab1 notebook, "Task 2"),
* `astar` (lab2 notebook, "Task 1"),
* the concrete `VacuumProblem`, `VacuumProblem2` and `PuzzleProblem` instances.

Python conventions are modelled as follows: Python sets become `Finset`,
Python lists become `List`, numeric costs (only ever integers in this
repository: all `action_cost` implementations return 1 and all heuristics
return natural numbers) become `Nat`, `None` becomes `Option.none`, and a
raised exception (`IndexError` from `visited[idx]` past the end) becomes an
explicit `fault` outcome.  Loops that are not structurally bounded
(`while 1:` in `bfs`, `while not queue.empty()` in `astar`) take a fuel
parameter; exhausting the fuel is a separate outcome from any real result.
-/

universe u v

variable {σ : Type} {α : Type}

/-- The `Problem` interface of the notebooks: `initial_state`,
`available_actions`, `do_action`, `is_goal`, and (lab2) `action_cost` and
`heuristic`. -/
structure Problem (σ α : Type) where
  initial_state : σ
  available_actions : σ → List α
  do_action : σ → α → σ
  is_goal : σ → Bool
  action_cost : σ → α → ℕ
  heuristic : σ → ℕ

/-- Executing a sequence of actions from a state (`do_action` folded left to
right); this is how the notebooks' driver loops replay a returned plan. -/
def execFrom (pb : Problem σ α) : σ → List α → σ
  | s, [] => s
  | s, a :: p => execFrom pb (pb.do_action s a) p

/-- A sequence of actions is valid from a state when each action is offered
by `available_actions` in the state where it is executed. -/
def ValidFrom (pb : Problem σ α) : σ → List α → Prop
  | _, [] => True
  | s, a :: p => a ∈ pb.available_actions s ∧ ValidFrom pb (pb.do_action s a) p

instance validFromDecidable (pb : Problem σ α) [DecidableEq α] :
    ∀ s p, Decidable (ValidFrom pb s p)
  | _, [] => .isTrue trivial
  | s, a :: p =>
      @instDecidableAnd _ _ _ (validFromDecidable pb (pb.do_action s a) p)

/-- Total `action_cost` of a sequence executed from a state. -/
def pathCost (pb : Problem σ α) : σ → List α → ℕ
  | _, [] => 0
  | s, a :: p => pb.action_cost s a + pathCost pb (pb.do_action s a) p

/-- The successive states entered while executing a sequence from a state
(one state per action, the starting state excluded). -/
def pathStates (pb : Problem σ α) : σ → List α → List σ
  | _, [] => []
  | s, a :: p => pb.do_action s a :: pathStates pb (pb.do_action s a) p

/-! ## Breadth-first search (`BFSAgent.bfs`)

The Python method keeps `visited`, a growing list of `[route, state]` pairs
doubling as the FIFO frontier (`idx` points at the next entry to expand),
and `taken_states`, a set that starts *empty* (the initial state is not
seeded).  The inner loop computes each successor, appends it (with the
extended route) when its state is not in `taken_states`, and returns
`visited[-1][0]` as soon as a successor satisfies `is_goal`.  Note the
notebook's goal test reads the global variable `problem`, which at every
call site is the same object as `self.problem`; we embed it as the same
problem. -/

structure BfsConfig (σ α : Type) where
  visited : List (List α × σ)
  taken : Finset σ
  idx : ℕ
deriving DecidableEq

/-- Result of one pass of the `while 1:` body: continue with an updated
configuration, return a plan, or raise `IndexError` (`visited[idx]` out of
range). -/
inductive BfsStepRes (σ α : Type) where
  | cont (c : BfsConfig σ α)
  | found (p : List α)
  | fault
deriving DecidableEq

/-- Overall result of `bfs`: a plan, an `IndexError`, or fuel exhaustion
(modelling an infinite `while 1:` loop). -/
inductive BfsRes (α : Type) where
  | found (p : List α)
  | fault
  | out
deriving DecidableEq

/-- The `for m in self.problem.available_actions(starting_state):` loop.
`route` is `route_to_starting_state`.  On a goal successor Python returns
`visited[-1][0]`; `visited` is provably never empty there (it always holds
at least the seed entry), so the `getLastD` default is unreachable. -/
def bfsExpand [DecidableEq σ] (pb : Problem σ α) (startSt : σ) (route : List α) :
    List α → List (List α × σ) → Finset σ →
    Option (List α) × List (List α × σ) × Finset σ
  | [], v, t => (none, v, t)
  | a :: rest, v, t =>
      let s₂ := pb.do_action startSt a
      let vt :=
        if s₂ ∈ t then (v, t)
        else (v ++ [(route ++ [a], s₂)], insert s₂ t)
      if pb.is_goal s₂ then
        (some (vt.1.getLastD ([], startSt)).1, vt.1, vt.2)
      else
        bfsExpand pb startSt route rest vt.1 vt.2

/-- One iteration of the `while 1:` loop of `bfs`. -/
def bfsStep [DecidableEq σ] (pb : Problem σ α) (c : BfsConfig σ α) :
    BfsStepRes σ α :=
  match c.visited[c.idx]? with
  | none => .fault
  | some e =>
      match bfsExpand pb e.2 e.1 (pb.available_actions e.2) c.visited c.taken with
      | (some p, _, _) => .found p
      | (none, v, t) => .cont ⟨v, t, c.idx + 1⟩

def bfsGo [DecidableEq σ] (pb : Problem σ α) : ℕ → BfsConfig σ α → BfsRes α
  | 0, _ => .out
  | n + 1, c =>
      match bfsStep pb c with
      | .found p => .found p
      | .fault => .fault
      | .cont c₂ => bfsGo pb n c₂

/-- Initially `visited = [[[], state]]`, `taken_states = set()`, `idx = 0`. -/
def bfsInit (pb : Problem σ α) : BfsConfig σ α :=
  ⟨[([], pb.initial_state)], ∅, 0⟩

/-- Method `BFSAgent.bfs`, with fuel for the unbounded `while 1:` loop. -/
def bfs [DecidableEq σ] (pb : Problem σ α) (fuel : ℕ) : BfsRes α :=
  bfsGo pb fuel (bfsInit pb)

/-! ## Depth-first search (`DFSAgent.dfs`)

`taken_states` is one Python set object passed by reference through the
recursion and mutated in place; we thread it explicitly: every call returns
the set as updated by all its (possibly failed) sub-branches, and the caller
continues with that set.  The guard `len(steps) < 45` bounds the recursion;
`if route:` is Python truthiness, under which both `None` and the empty
list fall through to the next action. -/

mutual

def dfs [DecidableEq σ] (pb : Problem σ α) (st : σ) (steps : List α)
    (taken : Finset σ) : Option (List α) × Finset σ :=
  if pb.is_goal st then (some steps, taken)
  else dfsLoop pb (pb.available_actions st) st steps taken
termination_by ((45 - steps.length, 1, 0) : ℕ × ℕ × ℕ)

def dfsLoop [DecidableEq σ] (pb : Problem σ α) (acts : List α) (st : σ)
    (steps : List α) (taken : Finset σ) : Option (List α) × Finset σ :=
  match acts with
  | [] => (none, taken)
  | a :: rest =>
      let later := pb.do_action st a
      if h : later ∉ taken ∧ steps.length < 45 then
        match dfs pb later (steps ++ [a]) (insert later taken) with
        | (some r, t₂) =>
            if r.isEmpty then dfsLoop pb rest st steps t₂ else (some r, t₂)
        | (none, t₂) => dfsLoop pb rest st steps t₂
      else dfsLoop pb rest st steps taken
termination_by ((45 - steps.length, 0, acts.length) : ℕ × ℕ × ℕ)

end

/-- In `DFSAgent.__init__` the visited set is seeded with the initial state
and the recursion starts there with an empty step list. -/
def dfsMain [DecidableEq σ] (pb : Problem σ α) : Option (List α) × Finset σ :=
  dfs pb pb.initial_state [] {pb.initial_state}

/-! ## A* (`astar` in the lab2 notebook)

Frontier entries are tuples `(cost, route, state, taken_states,
action_costs)` in a `PriorityQueue`.  Two crucial points of the source:

* `taken_states.add(later_state)` mutates the popped entry's set **in
  place** and the same (never copied) set object is stored into every new
  entry, so all entries ever created share one set; we embed that one
  shared set as a single `taken` component threaded beside the queue.
* `queue.get()` (heapq) removes the least tuple under Python's
  lexicographic tuple comparison: first `cost`, then `route` (a list of
  strings compared lexicographically), then `state`, then the set.  Because
  every entry's route determines its state and accumulated cost (and the
  set object is shared), the comparison never goes past `route`; the
  embedding therefore orders entries by `cost`, ties broken by a
  lexicographic route comparison built on a supplied action order `altb`.
-/

structure AEntry (σ α : Type) where
  f : ℕ
  route : List α
  state : σ
  g : ℕ
deriving DecidableEq

/-- Python's lexicographic list comparison (`<`): first differing element
decides, a strict prefix is smaller. -/
def listLtB (lt : α → α → Bool) : List α → List α → Bool
  | [], [] => false
  | [], _ :: _ => true
  | _ :: _, [] => false
  | a :: as, b :: bs => if lt a b then true else if lt b a then false else listLtB lt as bs

def entryLtB (altb : α → α → Bool) (e₁ e₂ : AEntry σ α) : Bool :=
  decide (e₁.f < e₂.f) || (decide (e₁.f = e₂.f) && listLtB altb e₁.route e₂.route)

/-- Extract the least element (under `lt`, a strict total order on the
entries present) together with the remaining elements, modelling
`heapq`-backed `PriorityQueue.get`. -/
def popMin (lt : β → β → Bool) : β → List β → β × List β
  | m, [] => (m, [])
  | m, x :: xs =>
      if lt x m then
        let r := popMin lt x xs
        (r.1, m :: r.2)
      else
        let r := popMin lt m xs
        (r.1, x :: r.2)

/-- The `for action in problem.available_actions(state):` loop of `astar`:
`later_cost` is `action_costs + action_cost + heuristic(later_state)`; a
successor not in the shared set is recorded in it and enqueued with a
copied, extended route. -/
def astarPush [DecidableEq σ] (pb : Problem σ α) (st : σ) (route : List α) (g : ℕ) :
    List α → List (AEntry σ α) → Finset σ → List (AEntry σ α) × Finset σ
  | [], q, t => (q, t)
  | a :: rest, q, t =>
      let later := pb.do_action st a
      let laterCost := g + pb.action_cost st a + pb.heuristic later
      if later ∈ t then astarPush pb st route g rest q t
      else
        astarPush pb st route g rest
          (q ++ [⟨laterCost, route ++ [a], later, g + pb.action_cost st a⟩])
          (insert later t)

/-- Result of `astar`: a plan plus the printed `len(taken_states)`, or
`None` plus the printed `len(taken_states)`, or fuel exhaustion. -/
inductive AstarRes (α : Type) where
  | found (p : List α) (visitedCount : ℕ)
  | exhausted (visitedCount : ℕ)
  | out
deriving DecidableEq

def astarGo [DecidableEq σ] (pb : Problem σ α) (altb : α → α → Bool) :
    ℕ → List (AEntry σ α) → Finset σ → AstarRes α
  | 0, _, _ => .out
  | n + 1, q, t =>
      match q with
      | [] => .exhausted t.card
      | e :: rest =>
          let m := popMin (entryLtB altb) e rest
          if pb.is_goal m.1.state then .found m.1.route t.card
          else
            let qt := astarPush pb m.1.state m.1.route m.1.g
              (pb.available_actions m.1.state) m.2 t
            astarGo pb altb n qt.1 qt.2

/-- Function `astar(problem)`: the queue is seeded with
`(heuristic(initial), [], initial, taken_states, 0)` and `taken_states`
starts as `{initial}`. -/
def astar [DecidableEq σ] (pb : Problem σ α) (altb : α → α → Bool) (fuel : ℕ) :
    AstarRes α :=
  astarGo pb altb fuel [⟨pb.heuristic pb.initial_state, [], pb.initial_state, 0⟩]
    {pb.initial_state}

/-- Python's string comparison: lexicographic on Unicode code points. -/
def charLtB (a b : Char) : Bool := decide (a.toNat < b.toNat)

def strLtB (a b : String) : Bool := listLtB charLtB a.data b.data

/-- Specialization of `astar` at the concrete action type used by every notebook problem
(action names are strings, compared as Python compares them). -/
def astarS [DecidableEq σ] (pb : Problem σ String) (fuel : ℕ) : AstarRes String :=
  astar pb strLtB fuel

/-! ## A* as the specification describes it (per-entry visited snapshots)

Modelled from the spec: the specification's §4.4 prescribes that "each
frontier entry additionally carries its own snapshot of the visited-state
set", and that expansion must "clone the visited set, add the successor"
before enqueueing — code that does **not** appear in the repository (the
source shares one set).  This second definition follows the spec's words so
it can be compared with `astar` above; ordering and everything else match
`astar`.  On `found` it reports the size of the returned entry's own
snapshot ("the size of its visited-set at that point"). -/

structure ASnapEntry (σ α : Type) where
  f : ℕ
  route : List α
  state : σ
  taken : Finset σ
  g : ℕ

def snapLtB (altb : α → α → Bool) (e₁ e₂ : ASnapEntry σ α) : Bool :=
  decide (e₁.f < e₂.f) || (decide (e₁.f = e₂.f) && listLtB altb e₁.route e₂.route)

def astarSnapPush [DecidableEq σ] (pb : Problem σ α) (st : σ) (route : List α)
    (g : ℕ) (taken : Finset σ) :
    List α → List (ASnapEntry σ α) → List (ASnapEntry σ α)
  | [], q => q
  | a :: rest, q =>
      let later := pb.do_action st a
      let laterCost := g + pb.action_cost st a + pb.heuristic later
      if later ∈ taken then astarSnapPush pb st route g taken rest q
      else
        astarSnapPush pb st route g taken rest
          (q ++ [⟨laterCost, route ++ [a], later, insert later taken,
            g + pb.action_cost st a⟩])

def astarSnapGo [DecidableEq σ] (pb : Problem σ α) (altb : α → α → Bool) :
    ℕ → List (ASnapEntry σ α) → AstarRes α
  | 0, _ => .out
  | n + 1, q =>
      match q with
      | [] => .exhausted 0
      | e :: rest =>
          let m := popMin (snapLtB altb) e rest
          if pb.is_goal m.1.state then .found m.1.route m.1.taken.card
          else
            astarSnapGo pb altb n
              (astarSnapPush pb m.1.state m.1.route m.1.g m.1.taken
                (pb.available_actions m.1.state) m.2)

def astarSnap [DecidableEq σ] (pb : Problem σ α) (altb : α → α → Bool)
    (fuel : ℕ) : AstarRes α :=
  astarSnapGo pb altb fuel
    [⟨pb.heuristic pb.initial_state, [], pb.initial_state,
      {pb.initial_state}, 0⟩]

def astarSnapS [DecidableEq σ] (pb : Problem σ String) (fuel : ℕ) :
    AstarRes String :=
  astarSnap pb strLtB fuel

/-! ## Concrete problems from the notebooks -/

/-- The two-room vacuum world of both notebooks: state is
`(robot, (dirtyA, dirtyB))`, every state offers `Left`, `Suck`, `Right`,
all actions cost 1, heuristic = number of dirty rooms (`sum(state[1])`).
The notebooks fix two rooms (the initial state is `(0, (True, True))`), so
the dirtiness tuple is embedded as a pair; `len(dirty) - 1 = 1`. -/
def VacuumProblem : Problem (ℕ × Bool × Bool) String where
  initial_state := (0, true, true)
  available_actions := fun _ => ["Left", "Suck", "Right"]
  do_action := fun s a =>
    let robot := s.1
    let dirty := s.2
    if a = "Left" then (robot - 1, dirty)
    else if a = "Suck" then
      -- `new_dirty[robot] = False`; for `robot ≥ 2` Python would raise an
      -- IndexError, but only robot positions 0 and 1 are ever reachable.
      if robot = 0 then (robot, false, dirty.2)
      else if robot = 1 then (robot, dirty.1, false)
      else s
    else if a = "Right" then (min (robot + 1) 1, dirty)
    else s  -- Python: raise Exception('Invalid action'), never reached
  is_goal := fun s => !s.2.1 && !s.2.2
  action_cost := fun _ _ => 1
  heuristic := fun s => s.2.1.toNat + s.2.2.toNat

/-- Class `VacuumProblem2` of the lab2 notebook: same world, inadmissible
heuristic `10 * sum(state[1])`. -/
def VacuumProblem2 : Problem (ℕ × Bool × Bool) String :=
  { VacuumProblem with heuristic := fun s => 10 * (s.2.1.toNat + s.2.2.toNat) }

/-- The 8-puzzle of both notebooks: state is
`(blank_position, board)` with the board a row-major list of nine tile
numbers (`0` marks the blank).  `do_action` swaps the blank with the tile
at the computed index via Python's simultaneous assignment; the final
`raise Exception("invalid action")` branch (never reached through
`available_actions`) is embedded as the identity. -/
def PuzzleProblem : Problem (ℕ × List ℕ) String where
  initial_state := (4, [7, 2, 4, 5, 0, 6, 8, 3, 1])
  available_actions := fun s =>
    let position := s.1
    (if position % 3 > 0 then ["Right"] else []) ++
    (if position % 3 < 2 then ["Left"] else []) ++
    (if position > 2 then ["Down"] else []) ++
    (if position < 6 then ["Up"] else [])
  do_action := fun s a =>
    let board := s.2
    let position := s.1
    if a = "Down" then
      (position - 3,
        (board.set position (board.getD (position - 3) 0)).set (position - 3)
          (board.getD position 0))
    else if a = "Up" then
      (position + 3,
        (board.set position (board.getD (position + 3) 0)).set (position + 3)
          (board.getD position 0))
    else if a = "Right" then
      (position - 1,
        (board.set position (board.getD (position - 1) 0)).set (position - 1)
          (board.getD position 0))
    else if a = "Left" then
      (position + 1,
        (board.set position (board.getD (position + 1) 0)).set (position + 1)
          (board.getD position 0))
    else s
  is_goal := fun s => decide (s = (0, [0, 1, 2, 3, 4, 5, 6, 7, 8]))
  action_cost := fun _ _ => 1
  heuristic := fun _ => 0

/-- The board index that `do_action` swaps the blank with (and moves the
blank to) for each action. -/
def moveTarget (a : String) (p : ℕ) : ℕ :=
  if a = "Down" then p - 3
  else if a = "Up" then p + 3
  else if a = "Right" then p - 1
  else if a = "Left" then p + 1
  else p

/-- Well-formedness of a `PuzzleProblem` state: blank index in range, nine
board cells, the blank index really holds `0`, and the board is a
permutation of `0..8`. -/
def PuzzleWF (s : ℕ × List ℕ) : Prop :=
  s.1 ≤ 8 ∧ s.2.length = 9 ∧ s.2.getD s.1 0 = 0 ∧ s.2.Perm (List.range 9)

/-- The spec's boundary problem: `available_actions` returns an empty
sequence everywhere and the (non-goal) initial state satisfies nothing. -/
def emptyActionsProblem : Problem ℕ String where
  initial_state := 0
  available_actions := fun _ => []
  do_action := fun s _ => s
  is_goal := fun _ => false
  action_cost := fun _ _ => 1
  heuristic := fun _ => 0

/-- A problem whose initial state is already a goal, with a self-loop: used
to probe the behaviour of `bfs` when `is_goal(initial_state)` holds. -/
def selfLoopGoalProblem : Problem ℕ String where
  initial_state := 0
  available_actions := fun _ => ["a"]
  do_action := fun _ _ => 0
  is_goal := fun _ => true
  action_cost := fun _ _ => 1
  heuristic := fun _ => 0

/-- A five-edge diamond on states `0..5` with unit costs: `0 ─p1→ 1 ─p→ 2
─c→ 4 ─g→ 5` and `0 ─q→ 3 ─c→ 4`, goal `5`.  Its heuristic
(2,1,0,1,0,0 on states 0..5) is consistent (hence admissible), yet the
shortest route to the goal runs through `q` while `astar` commits to the
long branch first. -/
def diamondProblem : Problem (Fin 6) String where
  initial_state := 0
  available_actions := fun s =>
    if s = 0 then ["p1", "q"]
    else if s = 1 then ["p"]
    else if s = 2 then ["c"]
    else if s = 3 then ["c"]
    else if s = 4 then ["g"]
    else []
  do_action := fun s a =>
    if s = 0 ∧ a = "p1" then 1
    else if s = 0 ∧ a = "q" then 3
    else if s = 1 ∧ a = "p" then 2
    else if s = 2 ∧ a = "c" then 4
    else if s = 3 ∧ a = "c" then 4
    else if s = 4 ∧ a = "g" then 5
    else s
  is_goal := fun s => decide (s = 5)
  action_cost := fun _ _ => 1
  heuristic := fun s =>
    if s = 0 then 2
    else if s = 1 then 1
    else if s = 2 then 0
    else if s = 3 then 1
    else 0

/-- A two-state tree problem (`0 ─a→ 1`, goal `1`, zero heuristic): the
simplest problem on which every state is reachable by exactly one valid
action sequence. -/
def chainProblem : Problem ℕ String where
  initial_state := 0
  available_actions := fun s => if s = 0 then ["a"] else []
  do_action := fun s a => if s = 0 ∧ a = "a" then 1 else s
  is_goal := fun s => decide (s = 1)
  action_cost := fun _ _ => 1
  heuristic := fun _ => 0

/-- A heuristic is admissible when it never overestimates the true cost of
any valid goal-reaching continuation. -/
def Admissible (pb : Problem σ α) : Prop :=
  ∀ s p, ValidFrom pb s p → pb.is_goal (execFrom pb s p) = true →
    pb.heuristic s ≤ pathCost pb s p

/-- A heuristic is consistent when it satisfies the triangle inequality
over every available action edge. -/
def Consistent (pb : Problem σ α) : Prop :=
  ∀ s, ∀ a ∈ pb.available_actions s,
    pb.heuristic s ≤ pb.action_cost s a + pb.heuristic (pb.do_action s a)

/-- A problem is tree-like when no state is reachable from the initial
state by two different valid action sequences. -/
def TreeLike (pb : Problem σ α) : Prop :=
  ∀ p q, ValidFrom pb pb.initial_state p → ValidFrom pb pb.initial_state q →
    execFrom pb pb.initial_state p = execFrom pb pb.initial_state q → p = q

/-- Everything provable about a single `dfs`/`dfsLoop` call with result
`r`: the shared visited set only ever grows (failed branches included), and
a returned plan extends `steps` by a valid, goal-reaching suffix that walks
only through states absent from the visited set the call received, within
the depth bound. -/
def DfsCallSpec [DecidableEq σ] (pb : Problem σ α) (st : σ) (steps : List α)
    (taken : Finset σ) (r : Option (List α) × Finset σ) : Prop :=
  taken ⊆ r.2 ∧
  ∀ p, r.1 = some p →
    ∃ suf, p = steps ++ suf ∧ ValidFrom pb st suf ∧
      pb.is_goal (execFrom pb st suf) = true ∧
      (∀ s ∈ pathStates pb st suf, s ∉ taken) ∧
      p.length ≤ max steps.length 45

/-- Soundness invariant for one A* frontier entry: its route is a valid
action sequence from the initial state that explains its `state`, `g` and
`f` fields. -/
def AstarEntryOk (pb : Problem σ α) (e : AEntry σ α) : Prop :=
  ValidFrom pb pb.initial_state e.route ∧
  execFrom pb pb.initial_state e.route = e.state ∧
  e.g = pathCost pb pb.initial_state e.route ∧
  e.f = e.g + pb.heuristic e.state

/-- Closure invariant tying the A* frontier to the shared visited set: the
initial state is recorded, and every recorded state either still has a
pending frontier entry or has been fully expanded (it is not a goal and
each of its successors is recorded too). -/
def AstarClosed [DecidableEq σ] (pb : Problem σ α) (q : List (AEntry σ α))
    (t : Finset σ) : Prop :=
  pb.initial_state ∈ t ∧
  ∀ s ∈ t, (∃ e ∈ q, e.state = s) ∨
    (pb.is_goal s = false ∧
      ∀ a ∈ pb.available_actions s, pb.do_action s a ∈ t)

/-- The loop invariant of `bfs`.  `visited` starts with the seed entry and
acts as a FIFO frontier: every entry's route is valid and explains its
state, route lengths are sorted (FIFO expands in non-decreasing depth),
all entries are at most one action deeper than the entry being expanded,
`taken_states` holds only non-goal states (a generated goal state returns
immediately) each backed by a frontier entry, every entry after the seed
has its state in `taken_states`, and every already-expanded entry has all
its successors recorded with an entry at most one action deeper. -/
structure BfsInvS [DecidableEq σ] (pb : Problem σ α) (c : BfsConfig σ α) :
    Prop where
  head : ∃ v₂, c.visited = ([], pb.initial_state) :: v₂
  idxLe : c.idx ≤ c.visited.length
  sound : ∀ e ∈ c.visited, ValidFrom pb pb.initial_state e.1 ∧
    execFrom pb pb.initial_state e.1 = e.2
  sorted : c.visited.Pairwise (fun x y => x.1.length ≤ y.1.length)
  spread : ∀ (hidx : c.idx < c.visited.length), ∀ e ∈ c.visited,
    e.1.length ≤ (c.visited[c.idx]).1.length + 1
  takenNoGoal : ∀ s ∈ c.taken, pb.is_goal s = false
  takenEntry : ∀ s ∈ c.taken, ∃ e ∈ c.visited, e.2 = s
  tailTaken : ∀ e ∈ c.visited.tail, e.2 ∈ c.taken
  closure : ∀ j, j < c.idx → ∀ (hj : j < c.visited.length),
    ∀ a ∈ pb.available_actions (c.visited[j]).2,
      ∃ e ∈ c.visited, e.2 = pb.do_action (c.visited[j]).2 a ∧
        e.1.length ≤ (c.visited[j]).1.length + 1

/-- The bookkeeping invariant behind claim C6: `taken_states` is exactly
the set of states of the entries appended after the seed entry, and those
states are pairwise distinct. -/
def BfsTakenInv [DecidableEq σ] (c : BfsConfig σ α) : Prop :=
  c.taken = (c.visited.tail.map Prod.snd).toFinset ∧
  (c.visited.tail.map Prod.snd).Nodup

/-- The configuration reached after `bfs` on `VacuumProblem` executes one
iteration of its loop: the initial state has been re-enqueued (entry 1,
rediscovered via `Left`) even though it already sits in the frontier as the
seed entry. -/
def vacuumBfs1 : BfsConfig (ℕ × Bool × Bool) String :=
  ⟨[([], (0, true, true)), (["Left"], (0, true, true)),
    (["Suck"], (0, false, true)), (["Right"], (1, true, true))],
    {(1, true, true), (0, false, true), (0, true, true)}, 1⟩

/-! ## Basic facts about executing action sequences -/

theorem execFrom_append (pb : Problem σ α) (s : σ) (p q : List α) :
    execFrom pb s (p ++ q) = execFrom pb (execFrom pb s p) q := by
  induction p generalizing s with
  | nil => rfl
  | cons a p ih => simp [execFrom, ih]

theorem pathCost_append (pb : Problem σ α) (s : σ) (p q : List α) :
    pathCost pb s (p ++ q) =
      pathCost pb s p + pathCost pb (execFrom pb s p) q := by
  induction p generalizing s with
  | nil => simp [pathCost, execFrom]
  | cons a p ih =>
      simp [pathCost, execFrom, ih]
      ring

theorem validFrom_append (pb : Problem σ α) (s : σ) (p q : List α) :
    ValidFrom pb s (p ++ q) ↔
      ValidFrom pb s p ∧ ValidFrom pb (execFrom pb s p) q := by
  induction p generalizing s with
  | nil => simp [ValidFrom, execFrom]
  | cons a p ih => simp [ValidFrom, execFrom, ih, and_assoc]

/-! ## Depth-first search: the bundled call specification -/

theorem dfs_spec [DecidableEq σ] (pb : Problem σ α) :
    ∀ (n : ℕ) (steps : List α), 45 - steps.length ≤ n →
      (∀ acts st taken, (∀ a ∈ acts, a ∈ pb.available_actions st) →
        DfsCallSpec pb st steps taken (dfsLoop pb acts st steps taken)) ∧
      (∀ st taken, DfsCallSpec pb st steps taken (dfs pb st steps taken)) := by
  intro n
  induction n with
  | zero =>
      intro steps hsteps
      have hlen : 45 ≤ steps.length := by omega
      have hloop : ∀ acts st taken, (∀ a ∈ acts, a ∈ pb.available_actions st) →
          DfsCallSpec pb st steps taken (dfsLoop pb acts st steps taken) := by
        intro acts
        induction acts with
        | nil =>
            intro st taken _
            rw [dfsLoop]
            exact ⟨Finset.Subset.refl _, by intro p hp; simp at hp⟩
        | cons a rest ih =>
            intro st taken hacts
            rw [dfsLoop]
            have hguard : ¬(pb.do_action st a ∉ taken ∧ steps.length < 45) := by
              intro h
              omega
            simp only [hguard, dif_neg, not_false_eq_true]
            exact ih st taken (fun b hb => hacts b (List.mem_cons_of_mem a hb))
      refine ⟨hloop, ?_⟩
      intro st taken
      rw [dfs]
      by_cases hg : pb.is_goal st
      · simp only [hg, if_pos]
        refine ⟨Finset.Subset.refl _, ?_⟩
        intro p hp
        obtain rfl : steps = p := by simpa using hp
        exact ⟨[], by simp [ValidFrom, execFrom, pathStates, hg]⟩
      · simp only [hg, if_neg, Bool.not_eq_true]
        exact hloop _ st taken (fun b hb => hb)
  | succ n ihn =>
      intro steps hsteps
      have hloop : ∀ acts st taken, (∀ a ∈ acts, a ∈ pb.available_actions st) →
          DfsCallSpec pb st steps taken (dfsLoop pb acts st steps taken) := by
        intro acts
        induction acts with
        | nil =>
            intro st taken _
            rw [dfsLoop]
            exact ⟨Finset.Subset.refl _, by intro p hp; simp at hp⟩
        | cons a rest ih =>
            intro st taken hacts
            have iha : DfsCallSpec pb st steps taken
                (dfsLoop pb rest st steps taken) :=
              ih st taken (fun b hb => hacts b (List.mem_cons_of_mem a hb))
            have hweak : ∀ t₃ : Finset σ, taken ⊆ t₃ →
                DfsCallSpec pb st steps t₃ (dfsLoop pb rest st steps t₃) →
                DfsCallSpec pb st steps taken (dfsLoop pb rest st steps t₃) := by
              rintro t₃ ht₃ ⟨hm, hf⟩
              refine ⟨Finset.Subset.trans ht₃ hm, ?_⟩
              intro p hp
              obtain ⟨suf, h1, h2, h3, h4, h5⟩ := hf p hp
              exact ⟨suf, h1, h2, h3, fun s hs hmem => h4 s hs (ht₃ hmem), h5⟩
            rw [dfsLoop]
            by_cases hguard : pb.do_action st a ∉ taken ∧ steps.length < 45
            · simp only [hguard, dif_pos]
              have hrec : DfsCallSpec pb (pb.do_action st a) (steps ++ [a])
                  (insert (pb.do_action st a) taken)
                  (dfs pb (pb.do_action st a) (steps ++ [a])
                    (insert (pb.do_action st a) taken)) := by
                refine (ihn (steps ++ [a]) ?_).2 _ _
                simp only [List.length_append, List.length_cons,
                  List.length_nil]
                omega
              obtain ⟨hmono₀, hfind₀⟩ := hrec
              rcases hr : dfs pb (pb.do_action st a) (steps ++ [a])
                  (insert (pb.do_action st a) taken) with ⟨o, t₂⟩
              rw [hr] at hmono₀ hfind₀
              have hsub : taken ⊆ t₂ :=
                Finset.Subset.trans (Finset.subset_insert _ _) hmono₀
              cases o with
              | none =>
                  exact hweak t₂ hsub
                    (ih st t₂ (fun b hb => hacts b (List.mem_cons_of_mem a hb)))
              | some r =>
                  by_cases hre : r.isEmpty
                  · simp only [hre, if_pos]
                    exact hweak t₂ hsub
                      (ih st t₂
                        (fun b hb => hacts b (List.mem_cons_of_mem a hb)))
                  · simp only [hre, if_neg, Bool.not_eq_true]
                    refine ⟨hsub, ?_⟩
                    intro p hp
                    have hrp : r = p := by simpa using hp
                    subst hrp
                    obtain ⟨suf, h1, h2, h3, h4, h5⟩ := hfind₀ r rfl
                    refine ⟨a :: suf, ?_, ?_, ?_, ?_, ?_⟩
                    · simpa using h1
                    · exact ⟨hacts a (List.mem_cons_self a rest), h2⟩
                    · simpa [execFrom] using h3
                    · intro s hs
                      simp only [pathStates, List.mem_cons] at hs
                      rcases hs with rfl | hs
                      · exact hguard.1
                      · intro hmem
                        exact h4 s hs (Finset.mem_insert_of_mem hmem)
                    · have hmx : max (steps ++ [a]).length 45 = 45 := by
                        simp only [List.length_append, List.length_cons,
                          List.length_nil]
                        omega
                      rw [hmx] at h5
                      omega
            · simp only [hguard, dif_neg, not_false_eq_true]
              exact iha
      refine ⟨hloop, ?_⟩
      intro st taken
      rw [dfs]
      by_cases hg : pb.is_goal st
      · simp only [hg, if_pos]
        refine ⟨Finset.Subset.refl _, ?_⟩
        intro p hp
        obtain rfl : steps = p := by simpa using hp
        exact ⟨[], by simp [ValidFrom, execFrom, pathStates, hg]⟩
      · simp only [hg, if_neg, Bool.not_eq_true]
        exact hloop _ st taken (fun b hb => hb)

theorem dfsLoop_bound_exhausted [DecidableEq σ] (pb : Problem σ α) :
    ∀ (acts : List α) (st : σ) (steps : List α) (taken : Finset σ),
      45 ≤ steps.length → dfsLoop pb acts st steps taken = (none, taken) := by
  intro acts
  induction acts with
  | nil =>
      intro st steps taken hlen
      rw [dfsLoop]
  | cons a rest ih =>
      intro st steps taken hlen
      rw [dfsLoop]
      have hg : ¬(pb.do_action st a ∉ taken ∧ steps.length < 45) :=
        fun hc => absurd hc.2 (by omega)
      simp only [hg, dif_neg, not_false_eq_true]
      exact ih st steps taken hlen

/-- Claim C7: `dfs` enforces the fixed depth bound 45 on action-sequence
length.  Termination on every problem (cyclic or infinite state spaces
included) is witnessed by `dfs` being accepted as a total Lean function
(its recursion decreases the measure `45 - steps.length`, exactly because
of the depth guard, and each call folds over a finite action list).  This
theorem states the two observable halves: any plan returned by the
`DFSAgent` entry point has at most 45 actions, and a non-goal state whose
branch has reached the bound is handled identically to one whose actions
are exhausted — both return failure `(none, taken)` for that branch, with
no fault. -/
theorem c7_dfs_depth_bound [DecidableEq σ] (pb : Problem σ α) (st : σ)
    (steps : List α) (taken : Finset σ) (p : List α) :
    ((dfsMain pb).1 = some p → p.length ≤ 45) ∧
    (pb.is_goal st = false → 45 ≤ steps.length →
      dfs pb st steps taken = (none, taken)) ∧
    (pb.is_goal st = false → pb.available_actions st = [] →
      dfs pb st steps taken = (none, taken)) := by
  refine ⟨?_, ?_, ?_⟩
  · intro hp
    have hspec := (dfs_spec pb 45 [] (by simp)).2 pb.initial_state
      {pb.initial_state}
    obtain ⟨suf, h1, _, _, _, h5⟩ := hspec.2 p hp
    simpa using h5
  · intro hg hlen
    rw [dfs]
    simp only [hg, Bool.false_eq_true, if_neg, not_false_eq_true]
    exact dfsLoop_bound_exhausted pb _ st steps taken hlen
  · intro hg hacts
    rw [dfs]
    simp only [hg, Bool.false_eq_true, if_neg, not_false_eq_true, hacts]
    rw [dfsLoop]

theorem c7_dfs_depth_bound_witness :
    ((dfsMain VacuumProblem).1 = some ["Suck", "Right", "Suck"] ∧
      (["Suck", "Right", "Suck"] : List String).length ≤ 45) ∧
    (emptyActionsProblem.is_goal 0 = false ∧
      45 ≤ (List.replicate 45 "x").length ∧
      dfs emptyActionsProblem 0 (List.replicate 45 "x") {0} = (none, {0})) ∧
    (emptyActionsProblem.available_actions 0 = [] ∧
      dfs emptyActionsProblem 0 [] {0} = (none, {0})) := by
  have hrun : (dfsMain VacuumProblem).1 = some ["Suck", "Right", "Suck"] := by
    simp +decide [dfsMain, dfs, dfsLoop, VacuumProblem]
  refine ⟨⟨hrun,
    (c7_dfs_depth_bound VacuumProblem (0, true, true) [] ∅ _).1 hrun⟩,
    ⟨by decide, by simp, ?_⟩, ⟨by decide, ?_⟩⟩
  · exact (c7_dfs_depth_bound emptyActionsProblem 0 (List.replicate 45 "x")
      {0} []).2.1 (by decide) (by simp)
  · exact (c7_dfs_depth_bound emptyActionsProblem 0 [] {0} []).2.2
      (by decide) (by decide)

/-- Claim C8: the `dfs` visited set is one shared, monotonically grown
structure: every call returns a superset of the set it received (failed
branches included — nothing is rolled back on backtrack), and any returned
plan only ever walks through states that were absent from the visited set
when the call started, i.e. a state that is already in the set is never
reconsidered via any other path. -/
theorem c8_dfs_shared_visited [DecidableEq σ] (pb : Problem σ α) (st : σ)
    (steps : List α) (taken : Finset σ) :
    taken ⊆ (dfs pb st steps taken).2 ∧
    (∀ p, (dfs pb st steps taken).1 = some p →
      ∃ suf, p = steps ++ suf ∧
        ∀ s ∈ pathStates pb st suf, s ∉ taken) := by
  have hspec := (dfs_spec pb (45 - steps.length) steps (le_refl _)).2 st taken
  refine ⟨hspec.1, ?_⟩
  intro p hp
  obtain ⟨suf, h1, _, _, h4, _⟩ := hspec.2 p hp
  exact ⟨suf, h1, h4⟩

theorem c8_dfs_shared_visited_witness :
    ({((0 : ℕ), true, true)} : Finset (ℕ × Bool × Bool)) ⊆
      (dfs VacuumProblem (0, true, true) [] {(0, true, true)}).2 ∧
    (∃ suf, ["Suck", "Right", "Suck"] = [] ++ suf ∧
      ∀ s ∈ pathStates VacuumProblem (0, true, true) suf,
        s ∉ ({((0 : ℕ), true, true)} : Finset (ℕ × Bool × Bool))) := by
  have hrun : (dfs VacuumProblem (0, true, true) [] {(0, true, true)}).1 =
      some ["Suck", "Right", "Suck"] := by
    simp +decide [dfs, dfsLoop, VacuumProblem]
  exact ⟨(c8_dfs_shared_visited VacuumProblem (0, true, true) []
      {(0, true, true)}).1,
    (c8_dfs_shared_visited VacuumProblem (0, true, true) []
      {(0, true, true)}).2 _ hrun⟩

/-! ## A*: properties of the priority-queue extraction and of expansion -/

theorem popMin_perm (lt : β → β → Bool) :
    ∀ (xs : List β) (m : β),
      (m :: xs).Perm ((popMin lt m xs).1 :: (popMin lt m xs).2) := by
  intro xs
  induction xs with
  | nil => intro m; rw [popMin]
  | cons x xs ih =>
      intro m
      rw [popMin]
      by_cases h : lt x m
      · simp only [h, if_pos]
        exact ((ih x).cons m).trans
          (List.Perm.swap (popMin lt x xs).1 m (popMin lt x xs).2)
      · simp only [h, if_neg, Bool.not_eq_true]
        exact ((List.Perm.swap x m xs).trans ((ih m).cons x)).trans
          (List.Perm.swap (popMin lt m xs).1 x (popMin lt m xs).2)

theorem entryLtB_f_le_of_true {altb : α → α → Bool} {e₁ e₂ : AEntry σ α}
    (h : entryLtB altb e₁ e₂ = true) : e₁.f ≤ e₂.f := by
  simp only [entryLtB, Bool.or_eq_true, Bool.and_eq_true,
    decide_eq_true_eq] at h
  rcases h with h | ⟨h, _⟩
  · exact le_of_lt h
  · exact le_of_eq h

theorem entryLtB_f_le_of_false {altb : α → α → Bool} {e₁ e₂ : AEntry σ α}
    (h : entryLtB altb e₁ e₂ = false) : e₂.f ≤ e₁.f := by
  simp only [entryLtB, Bool.or_eq_false_iff, Bool.and_eq_false_iff,
    decide_eq_false_iff_not] at h
  omega

theorem popMin_f_min (altb : α → α → Bool) :
    ∀ (xs : List (AEntry σ α)) (m : AEntry σ α), ∀ x ∈ m :: xs,
      (popMin (entryLtB altb) m xs).1.f ≤ x.f := by
  intro xs
  induction xs with
  | nil =>
      intro m x hx
      rw [popMin]
      obtain rfl : x = m := by simpa using hx
      exact le_refl _
  | cons y ys ih =>
      intro m x hx
      rw [popMin]
      by_cases h : entryLtB altb y m
      · simp only [h, if_pos]
        have hym : y.f ≤ m.f := entryLtB_f_le_of_true h
        rcases List.mem_cons.mp hx with rfl | hx₂
        · exact le_trans (ih y y (List.mem_cons_self y ys)) hym
        · exact ih y x hx₂
      · simp only [h, if_neg, Bool.not_eq_true]
        have hmy : m.f ≤ y.f := entryLtB_f_le_of_false (by simpa using h)
        rcases List.mem_cons.mp hx with rfl | hx₂
        · exact ih x x (List.mem_cons_self x ys)
        · rcases List.mem_cons.mp hx₂ with rfl | hx₃
          · exact le_trans (ih m m (List.mem_cons_self m ys)) hmy
          · exact ih m x (List.mem_cons_of_mem m hx₃)

theorem astarPush_spec [DecidableEq σ] (pb : Problem σ α) (st : σ)
    (route : List α) (g : ℕ) :
    ∀ (acts : List α) (q : List (AEntry σ α)) (t : Finset σ),
      (∀ e ∈ q, e ∈ (astarPush pb st route g acts q t).1) ∧
      t ⊆ (astarPush pb st route g acts q t).2 ∧
      (∀ a ∈ acts, pb.do_action st a ∈ (astarPush pb st route g acts q t).2) ∧
      (∀ e ∈ (astarPush pb st route g acts q t).1, e ∈ q ∨
        ∃ a ∈ acts,
          e = ⟨g + pb.action_cost st a + pb.heuristic (pb.do_action st a),
            route ++ [a], pb.do_action st a, g + pb.action_cost st a⟩) ∧
      (∀ s ∈ (astarPush pb st route g acts q t).2,
        s ∈ t ∨ ∃ e ∈ (astarPush pb st route g acts q t).1, e.state = s) := by
  intro acts
  induction acts with
  | nil =>
      intro q t
      rw [astarPush]
      exact ⟨fun e he => he, Finset.Subset.refl _, by simp,
        fun e he => Or.inl he, fun s hs => Or.inl hs⟩
  | cons a rest ih =>
      intro q t
      rw [astarPush]
      by_cases hmem : pb.do_action st a ∈ t
      · simp only [hmem, if_pos]
        obtain ⟨i1, i2, i3, i4, i5⟩ := ih q t
        refine ⟨i1, i2, ?_, ?_, i5⟩
        · intro b hb
          rcases List.mem_cons.mp hb with rfl | hb₂
          · exact i2 hmem
          · exact i3 b hb₂
        · intro e he
          rcases i4 e he with he₂ | ⟨b, hb, he₃⟩
          · exact Or.inl he₂
          · exact Or.inr ⟨b, List.mem_cons_of_mem a hb, he₃⟩
      · simp only [hmem, if_neg, not_false_eq_true]
        obtain ⟨i1, i2, i3, i4, i5⟩ := ih
          (q ++ [⟨g + pb.action_cost st a + pb.heuristic (pb.do_action st a),
            route ++ [a], pb.do_action st a, g + pb.action_cost st a⟩])
          (insert (pb.do_action st a) t)
        refine ⟨?_, ?_, ?_, ?_, ?_⟩
        · intro e he
          exact i1 e (List.mem_append_left _ he)
        · exact Finset.Subset.trans (Finset.subset_insert _ _) i2
        · intro b hb
          rcases List.mem_cons.mp hb with rfl | hb₂
          · exact i2 (Finset.mem_insert_self _ _)
          · exact i3 b hb₂
        · intro e he
          rcases i4 e he with he₂ | ⟨b, hb, he₃⟩
          · rcases List.mem_append.mp he₂ with he₃ | he₃
            · exact Or.inl he₃
            · refine Or.inr ⟨a, List.mem_cons_self a rest, ?_⟩
              simpa using he₃
          · exact Or.inr ⟨b, List.mem_cons_of_mem a hb, he₃⟩
        · intro s hs
          rcases i5 s hs with hs₂ | hs₂
          · rcases Finset.mem_insert.mp hs₂ with rfl | hs₃
            · exact Or.inr
                ⟨⟨g + pb.action_cost st a + pb.heuristic (pb.do_action st a),
                  route ++ [a], pb.do_action st a, g + pb.action_cost st a⟩,
                  i1 _ (List.mem_append_right _ (by simp)), rfl⟩
            · exact Or.inl hs₃
          · exact Or.inr hs₂

theorem astarPush_ok [DecidableEq σ] (pb : Problem σ α) {m : AEntry σ α}
    (hokm : AstarEntryOk pb m) {q₂ : List (AEntry σ α)} {t : Finset σ}
    (hok₂ : ∀ e ∈ q₂, AstarEntryOk pb e) :
    ∀ e ∈ (astarPush pb m.state m.route m.g
        (pb.available_actions m.state) q₂ t).1,
      AstarEntryOk pb e := by
  intro e he
  rcases (astarPush_spec pb m.state m.route m.g
      (pb.available_actions m.state) q₂ t).2.2.2.1 e he with he₂ | ⟨a, ha, rfl⟩
  · exact hok₂ e he₂
  · obtain ⟨hv, hx, hg, hf⟩ := hokm
    refine ⟨?_, ?_, ?_, rfl⟩
    · rw [validFrom_append]
      refine ⟨hv, ?_⟩
      simp only [ValidFrom, hx]
      exact ⟨ha, trivial⟩
    · rw [execFrom_append, hx]
      rfl
    · simp only [pathCost_append, hx, pathCost, hg]
      omega

theorem astarGo_sound [DecidableEq σ] (pb : Problem σ α)
    (altb : α → α → Bool) :
    ∀ (fuel : ℕ) (q : List (AEntry σ α)) (t : Finset σ),
      (∀ e ∈ q, AstarEntryOk pb e) →
      ∀ p c, astarGo pb altb fuel q t = .found p c →
        ValidFrom pb pb.initial_state p ∧
        pb.is_goal (execFrom pb pb.initial_state p) = true := by
  intro fuel
  induction fuel with
  | zero =>
      intro q t hok p c hrun
      rw [astarGo] at hrun
      exact absurd hrun (by simp)
  | succ n ih =>
      intro q t hok p c hrun
      cases q with
      | nil =>
          rw [astarGo] at hrun
          exact absurd hrun (by simp)
      | cons e rest =>
          have hmem : (popMin (entryLtB altb) e rest).1 ∈ e :: rest :=
            ((popMin_perm _ rest e).mem_iff).mpr (List.mem_cons_self _ _)
          simp only [astarGo] at hrun
          by_cases hgoal : pb.is_goal (popMin (entryLtB altb) e rest).1.state
          · rw [if_pos hgoal] at hrun
            cases hrun
            obtain ⟨hv, hx, _, _⟩ := hok _ hmem
            exact ⟨hv, by rw [hx]; exact hgoal⟩
          · rw [if_neg hgoal] at hrun
            have hokm := hok _ hmem
            have hok₂ : ∀ x ∈ (popMin (entryLtB altb) e rest).2,
                AstarEntryOk pb x := fun x hx =>
              hok x (((popMin_perm _ rest e).mem_iff).mpr
                (List.mem_cons_of_mem _ hx))
            exact ih _ _ (astarPush_ok pb hokm hok₂) p c hrun

/-- On a tree-like problem, any valid goal-reaching sequence whose prefix
has already been recorded in the shared visited set is still represented in
the frontier: some pending entry's route is a prefix of it. -/
theorem astar_cover [DecidableEq σ] (pb : Problem σ α) (htree : TreeLike pb)
    (q : List (AEntry σ α)) (t : Finset σ)
    (hok : ∀ e ∈ q, AstarEntryOk pb e) (hcl : AstarClosed pb q t) :
    ∀ (suf pre : List α),
      ValidFrom pb pb.initial_state (pre ++ suf) →
      pb.is_goal (execFrom pb pb.initial_state (pre ++ suf)) = true →
      execFrom pb pb.initial_state pre ∈ t →
      ∃ e ∈ q, ∃ rest, e.route ++ rest = pre ++ suf := by
  intro suf
  induction suf with
  | nil =>
      intro pre hvalid hgoal hmem
      rcases hcl.2 _ hmem with ⟨e, he, hes⟩ | ⟨hng, _⟩
      · obtain ⟨hv, hx, _, _⟩ := hok e he
        have heq : e.route = pre :=
          htree _ _ hv (by simpa using hvalid) (hx.trans hes)
        exact ⟨e, he, [], by rw [heq]⟩
      · rw [List.append_nil] at hgoal
        rw [hng] at hgoal
        exact absurd hgoal (by simp)
  | cons a suf₂ ih =>
      intro pre hvalid hgoal hmem
      rcases hcl.2 _ hmem with ⟨e, he, hes⟩ | ⟨hng, hsucc⟩
      · obtain ⟨hv, hx, _, _⟩ := hok e he
        have heq : e.route = pre :=
          htree _ _ hv ((validFrom_append pb _ pre (a :: suf₂)).mp hvalid).1
            (hx.trans hes)
        exact ⟨e, he, a :: suf₂, by rw [heq]⟩
      · have hv₂ : ValidFrom pb (execFrom pb pb.initial_state pre)
            (a :: suf₂) :=
          ((validFrom_append pb _ pre (a :: suf₂)).mp hvalid).2
        have ha : a ∈ pb.available_actions
            (execFrom pb pb.initial_state pre) := hv₂.1
        have hmem₂ : execFrom pb pb.initial_state (pre ++ [a]) ∈ t := by
          rw [execFrom_append]
          exact hsucc a ha
        have hassoc : (pre ++ [a]) ++ suf₂ = pre ++ (a :: suf₂) := by
          simp
        obtain ⟨e, he, rest, hr⟩ := ih (pre ++ [a])
          (by rw [hassoc]; exact hvalid) (by rw [hassoc]; exact hgoal) hmem₂
        exact ⟨e, he, rest, by rw [hr, hassoc]⟩

theorem astarGo_tree_optimal [DecidableEq σ] (pb : Problem σ α)
    (altb : α → α → Bool) (hadm : Admissible pb) (htree : TreeLike pb) :
    ∀ (fuel : ℕ) (q : List (AEntry σ α)) (t : Finset σ),
      (∀ e ∈ q, AstarEntryOk pb e) → AstarClosed pb q t →
      ∀ p c, astarGo pb altb fuel q t = .found p c →
        ∀ w, ValidFrom pb pb.initial_state w →
          pb.is_goal (execFrom pb pb.initial_state w) = true →
          pathCost pb pb.initial_state p ≤ pathCost pb pb.initial_state w := by
  intro fuel
  induction fuel with
  | zero =>
      intro q t hok hcl p c hrun
      rw [astarGo] at hrun
      exact absurd hrun (by simp)
  | succ n ih =>
      intro q t hok hcl p c hrun
      cases q with
      | nil =>
          rw [astarGo] at hrun
          exact absurd hrun (by simp)
      | cons e rest =>
          have hmem : (popMin (entryLtB altb) e rest).1 ∈ e :: rest :=
            ((popMin_perm _ rest e).mem_iff).mpr (List.mem_cons_self _ _)
          simp only [astarGo] at hrun
          by_cases hgoal : pb.is_goal (popMin (entryLtB altb) e rest).1.state
          · rw [if_pos hgoal] at hrun
            cases hrun
            intro w hwv hwg
            obtain ⟨e₀, he₀, rest₀, hr⟩ :=
              astar_cover pb htree (e :: rest) t hok hcl w []
                (by simpa using hwv) (by simpa using hwg) hcl.1
            rw [List.nil_append] at hr
            obtain ⟨hv₀, hx₀, hg₀, hf₀⟩ := hok e₀ he₀
            obtain ⟨_, _, hgm, hfm⟩ := hok _ hmem
            have h₁ : pathCost pb pb.initial_state
                (popMin (entryLtB altb) e rest).1.route ≤
                (popMin (entryLtB altb) e rest).1.f := by
              rw [hfm, hgm]
              exact Nat.le_add_right _ _
            have h₂ : (popMin (entryLtB altb) e rest).1.f ≤ e₀.f :=
              popMin_f_min altb rest e e₀ he₀
            have hwsplit := hr ▸ hwv
            have hvr : ValidFrom pb (execFrom pb pb.initial_state e₀.route)
                rest₀ :=
              ((validFrom_append pb _ e₀.route rest₀).mp hwsplit).2
            have hgr : pb.is_goal
                (execFrom pb (execFrom pb pb.initial_state e₀.route)
                  rest₀) = true := by
              rw [← execFrom_append, hr]
              exact hwg
            have h₃ : e₀.f ≤ pathCost pb pb.initial_state w := by
              rw [hf₀, hg₀, ← hr, pathCost_append, ← hx₀]
              exact Nat.add_le_add_left (hadm _ _ (hx₀ ▸ hvr) (hx₀ ▸ hgr)) _
            exact le_trans (le_trans h₁ h₂) h₃
          · rw [if_neg hgoal] at hrun
            have hokm := hok _ hmem
            have hok₂ : ∀ x ∈ (popMin (entryLtB altb) e rest).2,
                AstarEntryOk pb x := fun x hx =>
              hok x (((popMin_perm _ rest e).mem_iff).mpr
                (List.mem_cons_of_mem _ hx))
            have hcl₂ : AstarClosed pb
                (astarPush pb (popMin (entryLtB altb) e rest).1.state
                  (popMin (entryLtB altb) e rest).1.route
                  (popMin (entryLtB altb) e rest).1.g
                  (pb.available_actions (popMin (entryLtB altb) e rest).1.state)
                  (popMin (entryLtB altb) e rest).2 t).1
                (astarPush pb (popMin (entryLtB altb) e rest).1.state
                  (popMin (entryLtB altb) e rest).1.route
                  (popMin (entryLtB altb) e rest).1.g
                  (pb.available_actions (popMin (entryLtB altb) e rest).1.state)
                  (popMin (entryLtB altb) e rest).2 t).2 := by
              obtain ⟨i1, i2, i3, i4, i5⟩ := astarPush_spec pb
                (popMin (entryLtB altb) e rest).1.state
                (popMin (entryLtB altb) e rest).1.route
                (popMin (entryLtB altb) e rest).1.g
                (pb.available_actions (popMin (entryLtB altb) e rest).1.state)
                (popMin (entryLtB altb) e rest).2 t
              refine ⟨i2 hcl.1, ?_⟩
              intro s hs
              rcases i5 s hs with hst | hse
              · rcases hcl.2 s hst with ⟨e₂, he₂, hes₂⟩ | ⟨hng, hsucc⟩
                · rcases List.mem_cons.mp
                      (((popMin_perm (entryLtB altb) rest e).mem_iff).mp
                        he₂) with heq | he₃
                  · subst hes₂
                    rw [heq]
                    refine Or.inr ⟨by simpa using hgoal, ?_⟩
                    intro a ha
                    exact i3 a ha
                  · exact Or.inl ⟨e₂, i1 e₂ he₃, hes₂⟩
                · exact Or.inr ⟨hng, fun a ha => i2 (hsucc a ha)⟩
              · exact Or.inl hse
            exact ih _ _ (astarPush_ok pb hokm hok₂) hcl₂ p c hrun

/-! ## Breadth-first search: the expansion loop -/

theorem bfsExpand_cont_spec [DecidableEq σ] (pb : Problem σ α) (s : σ)
    (r : List α) :
    ∀ (acts : List α) (v : List (List α × σ)) (t : Finset σ),
      (∀ x ∈ t, ∃ e ∈ v, e.2 = x) →
      (bfsExpand pb s r acts v t).1 = none →
      ∃ w, (bfsExpand pb s r acts v t).2.1 = v ++ w ∧
        (∀ e ∈ w, (∃ a ∈ acts, e = (r ++ [a], pb.do_action s a)) ∧
          pb.is_goal e.2 = false ∧ e.2 ∈ (bfsExpand pb s r acts v t).2.2) ∧
        t ⊆ (bfsExpand pb s r acts v t).2.2 ∧
        (∀ x ∈ (bfsExpand pb s r acts v t).2.2, x ∈ t ∨ ∃ e ∈ w, e.2 = x) ∧
        (∀ a ∈ acts,
          ∃ e ∈ (bfsExpand pb s r acts v t).2.1, e.2 = pb.do_action s a) := by
  intro acts
  induction acts with
  | nil =>
      intro v t htE hnone
      rw [bfsExpand]
      exact ⟨[], by simp, by simp, Finset.Subset.refl _,
        fun x hx => Or.inl hx, by simp⟩
  | cons a rest ih =>
      intro v t htE hnone
      rw [bfsExpand] at hnone ⊢
      by_cases hm : pb.do_action s a ∈ t
      · by_cases hg : pb.is_goal (pb.do_action s a)
        · simp only [hm, if_pos, hg] at hnone
          exact absurd hnone (by simp)
        · simp only [hm, if_pos, hg, Bool.false_eq_true, if_neg,
            not_false_eq_true] at hnone ⊢
          obtain ⟨w, h1, h2, h3, h4, h5⟩ := ih v t htE hnone
          refine ⟨w, h1, ?_, h3, h4, ?_⟩
          · intro e he
            obtain ⟨⟨b, hb, he₂⟩, he₃, he₄⟩ := h2 e he
            exact ⟨⟨b, List.mem_cons_of_mem a hb, he₂⟩, he₃, he₄⟩
          · intro b hb
            rcases List.mem_cons.mp hb with rfl | hb₂
            · obtain ⟨e, he, he₂⟩ := htE _ hm
              exact ⟨e, by rw [h1]; exact List.mem_append_left _ he, he₂⟩
            · exact h5 b hb₂
      · by_cases hg : pb.is_goal (pb.do_action s a)
        · simp only [hm, if_neg, not_false_eq_true, hg, if_pos] at hnone
          exact absurd hnone (by simp)
        · simp only [hm, if_neg, not_false_eq_true, hg, Bool.false_eq_true]
            at hnone ⊢
          obtain ⟨w₂, h1, h2, h3, h4, h5⟩ :=
            ih (v ++ [(r ++ [a], pb.do_action s a)])
              (insert (pb.do_action s a) t)
              (by
                intro x hx
                rcases Finset.mem_insert.mp hx with rfl | hx₂
                · exact ⟨(r ++ [a], pb.do_action s a), by simp, rfl⟩
                · obtain ⟨e, he, he₂⟩ := htE x hx₂
                  exact ⟨e, List.mem_append_left _ he, he₂⟩)
              hnone
          refine ⟨(r ++ [a], pb.do_action s a) :: w₂, by simpa using h1,
            ?_, ?_, ?_, ?_⟩
          · intro e he
            rcases List.mem_cons.mp he with rfl | he₂
            · exact ⟨⟨a, List.mem_cons_self a rest, rfl⟩,
                by simpa using hg, h3 (Finset.mem_insert_self _ _)⟩
            · obtain ⟨⟨b, hb, he₃⟩, he₄, he₅⟩ := h2 e he₂
              exact ⟨⟨b, List.mem_cons_of_mem a hb, he₃⟩, he₄, he₅⟩
          · exact Finset.Subset.trans (Finset.subset_insert _ _) h3
          · intro x hx
            rcases h4 x hx with hx₂ | ⟨e, he, he₂⟩
            · rcases Finset.mem_insert.mp hx₂ with rfl | hx₃
              · exact Or.inr ⟨(r ++ [a], pb.do_action s a), by simp, rfl⟩
              · exact Or.inl hx₃
            · exact Or.inr ⟨e, List.mem_cons_of_mem _ he, he₂⟩
          · intro b hb
            rcases List.mem_cons.mp hb with rfl | hb₂
            · refine ⟨(r ++ [b], pb.do_action s b), ?_, rfl⟩
              rw [h1]
              exact List.mem_append_left _
                (List.mem_append_right _ (by simp))
            · exact h5 b hb₂

theorem bfsExpand_found_spec [DecidableEq σ] (pb : Problem σ α) (s : σ)
    (r : List α) :
    ∀ (acts : List α) (v : List (List α × σ)) (t : Finset σ) (p : List α),
      (∀ x ∈ t, pb.is_goal x = false) →
      (bfsExpand pb s r acts v t).1 = some p →
      ∃ a ∈ acts, p = r ++ [a] ∧ pb.is_goal (pb.do_action s a) = true := by
  intro acts
  induction acts with
  | nil =>
      intro v t p htg hsome
      rw [bfsExpand] at hsome
      exact absurd hsome (by simp)
  | cons a rest ih =>
      intro v t p htg hsome
      rw [bfsExpand] at hsome
      by_cases hm : pb.do_action s a ∈ t
      · by_cases hg : pb.is_goal (pb.do_action s a)
        · exact absurd hg (by simp [htg _ hm])
        · simp only [hm, if_pos, hg, Bool.false_eq_true, if_neg,
            not_false_eq_true] at hsome
          obtain ⟨b, hb, hp, hbg⟩ := ih v t p htg hsome
          exact ⟨b, List.mem_cons_of_mem a hb, hp, hbg⟩
      · by_cases hg : pb.is_goal (pb.do_action s a)
        · simp only [hm, if_neg, not_false_eq_true, hg, if_pos] at hsome
          refine ⟨a, List.mem_cons_self a rest, ?_, hg⟩
          rw [List.getLastD_concat] at hsome
          exact (Option.some_inj.mp hsome).symm
        · simp only [hm, if_neg, not_false_eq_true, hg, Bool.false_eq_true]
            at hsome
          obtain ⟨b, hb, hp, hbg⟩ := ih _ _ p
            (by
              intro x hx
              rcases Finset.mem_insert.mp hx with rfl | hx₂
              · simpa using hg
              · exact htg x hx₂)
            hsome
          exact ⟨b, List.mem_cons_of_mem a hb, hp, hbg⟩

theorem bfsExpand_taken_track [DecidableEq σ] (pb : Problem σ α) (s : σ)
    (r : List α) :
    ∀ (acts : List α) (v : List (List α × σ)) (t : Finset σ),
      (bfsExpand pb s r acts v t).1 = none →
      ∃ w, (bfsExpand pb s r acts v t).2.1 = v ++ w ∧
        (bfsExpand pb s r acts v t).2.2 = t ∪ (w.map Prod.snd).toFinset ∧
        (w.map Prod.snd).Nodup ∧ (∀ x ∈ w.map Prod.snd, x ∉ t) := by
  intro acts
  induction acts with
  | nil =>
      intro v t hnone
      rw [bfsExpand]
      exact ⟨[], by simp, by simp, by simp, by simp⟩
  | cons a rest ih =>
      intro v t hnone
      rw [bfsExpand] at hnone ⊢
      by_cases hm : pb.do_action s a ∈ t
      · by_cases hg : pb.is_goal (pb.do_action s a)
        · simp only [hm, if_pos, hg] at hnone
          exact absurd hnone (by simp)
        · simp only [hm, if_pos, hg, Bool.false_eq_true, if_neg,
            not_false_eq_true] at hnone ⊢
          exact ih v t hnone
      · by_cases hg : pb.is_goal (pb.do_action s a)
        · simp only [hm, if_neg, not_false_eq_true, hg, if_pos] at hnone
          exact absurd hnone (by simp)
        · simp only [hm, if_neg, not_false_eq_true, hg, Bool.false_eq_true]
            at hnone ⊢
          obtain ⟨w₂, h1, h2, h3, h4⟩ :=
            ih (v ++ [(r ++ [a], pb.do_action s a)])
              (insert (pb.do_action s a) t) hnone
          refine ⟨(r ++ [a], pb.do_action s a) :: w₂, by simpa using h1,
            ?_, ?_, ?_⟩
          · rw [h2]
            ext x
            simp only [Finset.mem_union, Finset.mem_insert, List.map_cons,
              List.toFinset_cons, List.mem_toFinset]
            tauto
          · refine List.Nodup.cons ?_ h3
            intro hmem
            exact (h4 _ hmem) (Finset.mem_insert_self _ _)
          · intro x hx
            rcases List.mem_cons.mp hx with rfl | hx₂
            · exact hm
            · intro hxt
              exact (h4 x hx₂) (Finset.mem_insert_of_mem hxt)

theorem bfsStep_found_spec [DecidableEq σ] (pb : Problem σ α)
    {c : BfsConfig σ α} {p : List α} (hinv : BfsInvS pb c)
    (hstep : bfsStep pb c = .found p) :
    ∃ (hidx : c.idx < c.visited.length),
      ∃ a ∈ pb.available_actions (c.visited[c.idx]).2,
        p = (c.visited[c.idx]).1 ++ [a] ∧
        pb.is_goal (pb.do_action (c.visited[c.idx]).2 a) = true := by
  rw [bfsStep] at hstep
  rcases hE : c.visited[c.idx]? with _ | e
  · rw [hE] at hstep
    exact absurd hstep (by simp)
  · rw [hE] at hstep
    dsimp only at hstep
    obtain ⟨hidx, he⟩ := List.getElem?_eq_some.mp hE
    rcases hX : bfsExpand pb e.2 e.1 (pb.available_actions e.2)
        c.visited c.taken with ⟨o, v₂, t₂⟩
    rw [hX] at hstep
    cases o with
    | none => exact absurd hstep (by simp)
    | some p₂ =>
        have hp : p₂ = p := by
          simpa using hstep
        subst hp
        obtain ⟨a, ha, hp₂, hg⟩ := bfsExpand_found_spec pb e.2 e.1
          (pb.available_actions e.2) c.visited c.taken p₂
          hinv.takenNoGoal (by rw [hX])
        exact ⟨hidx, a, by rw [he]; exact ha, by rw [he]; exact hp₂,
          by rw [he]; exact hg⟩

theorem bfsStep_cont_inv [DecidableEq σ] (pb : Problem σ α)
    {c c₂ : BfsConfig σ α} (hinv : BfsInvS pb c)
    (hstep : bfsStep pb c = .cont c₂) : BfsInvS pb c₂ := by
  rw [bfsStep] at hstep
  rcases hE : c.visited[c.idx]? with _ | e
  · rw [hE] at hstep
    exact absurd hstep (by simp)
  · rw [hE] at hstep
    dsimp only at hstep
    obtain ⟨hidx, he⟩ := List.getElem?_eq_some.mp hE
    have hmem : e ∈ c.visited := he ▸ List.getElem_mem hidx
    obtain ⟨hvalid, hexec⟩ := hinv.sound e hmem
    rcases hX : bfsExpand pb e.2 e.1 (pb.available_actions e.2)
        c.visited c.taken with ⟨o, v₂, t₂⟩
    rw [hX] at hstep
    cases o with
    | some p₂ => exact absurd hstep (by simp)
    | none =>
        have hc₂ : c₂ = ⟨v₂, t₂, c.idx + 1⟩ := by
          have := hstep
          simp only [BfsStepRes.cont.injEq] at this
          exact this.symm
        subst hc₂
        obtain ⟨w, h1, h2, h3, h4, h5⟩ := bfsExpand_cont_spec pb e.2 e.1
          (pb.available_actions e.2) c.visited c.taken hinv.takenEntry
          (by rw [hX])
        rw [hX] at h1 h2 h3 h4 h5
        simp only at h1 h2 h3 h4 h5
        subst h1
        have hwlen : ∀ e₂ ∈ w, e₂.1.length = e.1.length + 1 := by
          intro e₂ he₂
          obtain ⟨⟨a, _, rfl⟩, _, _⟩ := h2 e₂ he₂
          simp
        have hvall : ∀ e₂ ∈ c.visited ++ w,
            e₂.1.length ≤ e.1.length + 1 := by
          intro e₂ he₂
          rcases List.mem_append.mp he₂ with he₃ | he₃
          · have := hinv.spread hidx e₂ he₃
            rw [he] at this
            exact this
          · exact le_of_eq (hwlen e₂ he₃)
        have hsorted₂ : (c.visited ++ w).Pairwise
            (fun x y => x.1.length ≤ y.1.length) := by
          rw [List.pairwise_append]
          refine ⟨hinv.sorted, ?_, ?_⟩
          · rw [List.pairwise_iff_getElem]
            intro i j hi hj hij
            rw [hwlen _ (List.getElem_mem hi), hwlen _ (List.getElem_mem hj)]
          · intro x hx y hy
            rw [hwlen y hy]
            have := hinv.spread hidx x hx
            rw [he] at this
            exact this
        refine ⟨?_, ?_, ?_, hsorted₂, ?_, ?_, ?_, ?_, ?_⟩
        · obtain ⟨v₃, hv₃⟩ := hinv.head
          exact ⟨v₃ ++ w, by rw [hv₃]; simp⟩
        · simp only [List.length_append]
          omega
        · intro e₂ he₂
          rcases List.mem_append.mp he₂ with he₃ | he₃
          · exact hinv.sound e₂ he₃
          · obtain ⟨⟨a, ha, rfl⟩, _, _⟩ := h2 e₂ he₃
            constructor
            · rw [validFrom_append]
              refine ⟨hvalid, ?_⟩
              simp only [ValidFrom, hexec]
              exact ⟨ha, trivial⟩
            · simp only [execFrom_append, hexec]
              rfl
        · intro hidx₂ e₂ he₂
          dsimp only at hidx₂ he₂ ⊢
          have hidx₂l : c.idx < (c.visited ++ w).length := by
            simp only [List.length_append]
            omega
          have hElow : (c.visited ++ w)[c.idx] = e := by
            rw [List.getElem_append_left hidx]
            exact he
          have hdd : e.1.length ≤ ((c.visited ++ w)[c.idx + 1]).1.length := by
            have := List.pairwise_iff_getElem.mp hsorted₂ c.idx (c.idx + 1)
              hidx₂l hidx₂ (by omega)
            rw [hElow] at this
            exact this
          have h6 := hvall e₂ he₂
          omega
        · intro x hx
          rcases h4 x hx with hx₂ | ⟨e₂, he₂, he₃⟩
          · exact hinv.takenNoGoal x hx₂
          · obtain ⟨_, hng, _⟩ := h2 e₂ he₂
            rw [← he₃]
            exact hng
        · intro x hx
          rcases h4 x hx with hx₂ | ⟨e₂, he₂, he₃⟩
          · obtain ⟨e₃, he₃, he₄⟩ := hinv.takenEntry x hx₂
            exact ⟨e₃, List.mem_append_left _ he₃, he₄⟩
          · exact ⟨e₂, List.mem_append_right _ he₂, he₃⟩
        · intro e₂ he₂
          obtain ⟨v₃, hv₃⟩ := hinv.head
          rw [hv₃, List.cons_append, List.tail_cons] at he₂
          rcases List.mem_append.mp he₂ with he₃ | he₃
          · refine h3 ?_
            apply hinv.tailTaken
            rw [hv₃]
            exact he₃
          · exact (h2 e₂ he₃).2.2
        · intro j hj hjl a ha
          simp only at hj
          have hjv : j < c.visited.length := by omega
          have hEj : (c.visited ++ w)[j] = c.visited[j] :=
            List.getElem_append_left hjv
          rw [hEj] at ha ⊢
          by_cases hji : j < c.idx
          · obtain ⟨e₃, he₃, he₄, he₅⟩ := hinv.closure j hji hjv a ha
            exact ⟨e₃, List.mem_append_left _ he₃, he₄, he₅⟩
          · have hje : j = c.idx := by omega
            subst hje
            rw [he] at ha ⊢
            obtain ⟨e₃, he₃, he₄⟩ := h5 a ha
            exact ⟨e₃, he₃, he₄, hvall e₃ he₃⟩

theorem bfs_descent [DecidableEq σ] (pb : Problem σ α) {c : BfsConfig σ α}
    (hinv : BfsInvS pb c)
    (hng : ∀ e ∈ c.visited, pb.is_goal e.2 = false) :
    ∀ (q₁ : List α) (j : ℕ) (hj : j < c.visited.length),
      ValidFrom pb (c.visited[j]).2 q₁ →
      pb.is_goal (execFrom pb (c.visited[j]).2 q₁) = true →
      ∃ (k : ℕ) (hk : k < c.visited.length), c.idx ≤ k ∧ ∃ q₂,
        ValidFrom pb (c.visited[k]).2 q₂ ∧
        pb.is_goal (execFrom pb (c.visited[k]).2 q₂) = true ∧
        (c.visited[k]).1.length + q₂.length ≤
          (c.visited[j]).1.length + q₁.length := by
  suffices h : ∀ (n : ℕ) (q₁ : List α) (j : ℕ) (hj : j < c.visited.length),
      q₁.length ≤ n →
      ValidFrom pb (c.visited[j]).2 q₁ →
      pb.is_goal (execFrom pb (c.visited[j]).2 q₁) = true →
      ∃ (k : ℕ) (hk : k < c.visited.length), c.idx ≤ k ∧ ∃ q₂,
        ValidFrom pb (c.visited[k]).2 q₂ ∧
        pb.is_goal (execFrom pb (c.visited[k]).2 q₂) = true ∧
        (c.visited[k]).1.length + q₂.length ≤
          (c.visited[j]).1.length + q₁.length by
    intro q₁ j hj hv hg
    exact h q₁.length q₁ j hj (le_refl _) hv hg
  intro n
  induction n with
  | zero =>
      intro q₁ j hj hlen hv hg
      have hq : q₁ = [] := List.length_eq_zero.mp (by omega)
      subst hq
      by_cases hij : c.idx ≤ j
      · exact ⟨j, hj, hij, [], trivial, hg, le_refl _⟩
      · exact absurd hg
          (by simp [execFrom, hng _ (List.getElem_mem hj)])
  | succ n ihn =>
      intro q₁ j hj hlen hv hg
      by_cases hij : c.idx ≤ j
      · exact ⟨j, hj, hij, q₁, hv, hg, le_refl _⟩
      · cases q₁ with
        | nil =>
            exact absurd hg
              (by simp [execFrom, hng _ (List.getElem_mem hj)])
        | cons a q₂ =>
            obtain ⟨ha, hv₂⟩ := hv
            obtain ⟨e₃, he₃, he₄, he₅⟩ :=
              hinv.closure j (by omega) hj a ha
            obtain ⟨k₂, hk₂, hek⟩ := List.mem_iff_getElem.mp he₃
            obtain ⟨k, hk, hik, q₃, h₁, h₂, h₃⟩ := ihn q₂ k₂ hk₂
              (by simpa using hlen)
              (by rw [hek, he₄]; exact hv₂)
              (by rw [hek, he₄]; exact hg)
            refine ⟨k, hk, hik, q₃, h₁, h₂, ?_⟩
            rw [hek] at h₃
            simp only [List.length_cons]
            omega

theorem bfsInit_inv [DecidableEq σ] (pb : Problem σ α) :
    BfsInvS pb (bfsInit pb) := by
  refine ⟨⟨[], rfl⟩, by simp [bfsInit], ?_, ?_, ?_, ?_, ?_, ?_, ?_⟩
  · intro e he
    simp only [bfsInit, List.mem_singleton] at he
    subst he
    exact ⟨trivial, rfl⟩
  · simp [bfsInit]
  · intro hidx e he
    simp only [bfsInit, List.mem_singleton] at he
    subst he
    simp [bfsInit]
  · simp [bfsInit]
  · simp [bfsInit]
  · simp [bfsInit]
  · intro j hj
    simp only [bfsInit] at hj
    omega

theorem bfs_noGoalEntries [DecidableEq σ] (pb : Problem σ α)
    {c : BfsConfig σ α} (hinv : BfsInvS pb c)
    (hgin : pb.is_goal pb.initial_state = false) :
    ∀ e ∈ c.visited, pb.is_goal e.2 = false := by
  intro e he
  obtain ⟨v₂, hv₂⟩ := hinv.head
  rw [hv₂] at he
  rcases List.mem_cons.mp he with rfl | he₂
  · exact hgin
  · refine hinv.takenNoGoal _ (hinv.tailTaken e ?_)
    rw [hv₂]
    exact he₂

theorem bfsGo_found_spec [DecidableEq σ] (pb : Problem σ α) :
    ∀ (fuel : ℕ) (c : BfsConfig σ α), BfsInvS pb c →
      ∀ p, bfsGo pb fuel c = .found p →
        (ValidFrom pb pb.initial_state p ∧
          pb.is_goal (execFrom pb pb.initial_state p) = true) ∧
        (pb.is_goal pb.initial_state = false →
          ∀ w, ValidFrom pb pb.initial_state w →
            pb.is_goal (execFrom pb pb.initial_state w) = true →
            p.length ≤ w.length) := by
  intro fuel
  induction fuel with
  | zero =>
      intro c hinv p hrun
      rw [bfsGo] at hrun
      exact absurd hrun (by simp)
  | succ n ihn =>
      intro c hinv p hrun
      rw [bfsGo] at hrun
      rcases hstep : bfsStep pb c with c₂ | p₂ | _
      · rw [hstep] at hrun
        exact ihn c₂ (bfsStep_cont_inv pb hinv hstep) p hrun
      · rw [hstep] at hrun
        have hp : p₂ = p := by simpa using hrun
        subst hp
        obtain ⟨hidx, a, ha, hp, hg⟩ := bfsStep_found_spec pb hinv hstep
        have hmem : c.visited[c.idx] ∈ c.visited := List.getElem_mem hidx
        obtain ⟨hvalid, hexec⟩ := hinv.sound _ hmem
        constructor
        · constructor
          · rw [hp, validFrom_append]
            refine ⟨hvalid, ?_⟩
            simp only [ValidFrom, hexec]
            exact ⟨ha, trivial⟩
          · rw [hp]
            simp only [execFrom_append, hexec]
            simpa [execFrom] using hg
        · intro hgin w hwv hwg
          have hng := bfs_noGoalEntries pb hinv hgin
          obtain ⟨v₂, hv₂⟩ := hinv.head
          have h0 : 0 < c.visited.length := by
            rw [hv₂]
            simp
          have hv0 : c.visited[0] = ([], pb.initial_state) := by
            simp only [hv₂, List.getElem_cons_zero]
          obtain ⟨k, hk, hik, q₂, h₁, h₂, h₃⟩ :=
            bfs_descent pb hinv hng w 0 h0
              (by rw [hv0]; exact hwv) (by rw [hv0]; exact hwg)
          have hq₂ : q₂ ≠ [] := by
            intro hq
            subst hq
            simp only [execFrom] at h₂
            rw [hng _ (List.getElem_mem hk)] at h₂
            exact absurd h₂ (by simp)
          have hkd : (c.visited[c.idx]).1.length ≤
              (c.visited[k]).1.length := by
            rcases lt_or_eq_of_le hik with hik₂ | hik₂
            · exact List.pairwise_iff_getElem.mp hinv.sorted c.idx k
                hidx hk hik₂
            · subst hik₂
              exact le_refl _
          have hq₂l : 1 ≤ q₂.length := by
            cases q₂ with
            | nil => exact absurd rfl hq₂
            | cons b q₃ => simp
          rw [hv0] at h₃
          have h₄ : (c.visited[k]).1.length + q₂.length ≤ w.length := by
            simpa using h₃
          rw [hp]
          simp only [List.length_append, List.length_cons, List.length_nil]
          omega
      · rw [hstep] at hrun
        exact absurd hrun (by simp)

theorem bfsStep_taken_inv [DecidableEq σ] (pb : Problem σ α)
    {c c₂ : BfsConfig σ α} (htk : BfsTakenInv c)
    (hstep : bfsStep pb c = .cont c₂) :
    BfsTakenInv c₂ ∧ c.taken ⊆ c₂.taken := by
  rw [bfsStep] at hstep
  rcases hE : c.visited[c.idx]? with _ | e
  · rw [hE] at hstep
    exact absurd hstep (by simp)
  · rw [hE] at hstep
    dsimp only at hstep
    obtain ⟨hidx, he⟩ := List.getElem?_eq_some.mp hE
    have hne : c.visited ≠ [] := by
      intro hc
      rw [hc] at hidx
      simp at hidx
    rcases hX : bfsExpand pb e.2 e.1 (pb.available_actions e.2)
        c.visited c.taken with ⟨o, v₂, t₂⟩
    rw [hX] at hstep
    cases o with
    | some p₂ => exact absurd hstep (by simp)
    | none =>
        have hc₂ : c₂ = ⟨v₂, t₂, c.idx + 1⟩ := by
          have := hstep
          simp only [BfsStepRes.cont.injEq] at this
          exact this.symm
        subst hc₂
        obtain ⟨w, h1, h2, h3, h4⟩ := bfsExpand_taken_track pb e.2 e.1
          (pb.available_actions e.2) c.visited c.taken (by rw [hX])
        rw [hX] at h1 h2
        simp only at h1 h2
        subst h1
        obtain ⟨ht1, ht2⟩ := htk
        have htail : (c.visited ++ w).tail = c.visited.tail ++ w := by
          rcases hv : c.visited with _ | ⟨x, xs⟩
          · exact absurd hv hne
          · simp
        constructor
        · constructor
          · simp only [htail, List.map_append, List.toFinset_append, h2, ht1]
          · simp only [htail, List.map_append]
            rw [List.nodup_append]
            refine ⟨ht2, h3, ?_⟩
            intro x hx hx₂
            refine h4 x hx₂ ?_
            rw [ht1]
            exact List.mem_toFinset.mpr hx
        · simp only [h2]
          exact Finset.subset_union_left

/-! ## Helper facts for the claims about heuristics and tree-likeness -/

theorem admissible_of_consistent (pb : Problem σ α) (hcons : Consistent pb)
    (hgz : ∀ s, pb.is_goal s = true → pb.heuristic s = 0) :
    Admissible pb := by
  intro s p
  induction p generalizing s with
  | nil =>
      intro _ hg
      simp only [execFrom] at hg
      simp [pathCost, hgz s hg]
  | cons a p ih =>
      intro hv hg
      obtain ⟨ha, hv₂⟩ := hv
      simp only [execFrom] at hg
      have h₁ := hcons s a ha
      have h₂ := ih (pb.do_action s a) hv₂ hg
      simp only [pathCost]
      omega

theorem chainProblem_treeLike : TreeLike chainProblem := by
  have hpaths : ∀ p, ValidFrom chainProblem 0 p → p = [] ∨ p = ["a"] := by
    intro p hp
    cases p with
    | nil => exact Or.inl rfl
    | cons a q =>
        obtain ⟨ha, hq⟩ := hp
        have ha₂ : a = "a" := by simpa [chainProblem] using ha
        subst ha₂
        cases q with
        | nil => exact Or.inr rfl
        | cons b r =>
            obtain ⟨hb, _⟩ := hq
            simp [chainProblem] at hb
  intro p q hp hq heq
  rcases hpaths p hp with rfl | rfl <;> rcases hpaths q hq with rfl | rfl
  · rfl
  · simp [chainProblem, execFrom] at heq
  · simp [chainProblem, execFrom] at heq
  · rfl

/-! ## The claims -/

/-- Claim C1, corrected.  First half (proved here for all three
strategies): a returned plan, applied action-by-action with `do_action`
from the initial state, ends in a state satisfying `is_goal` (and only ever
uses available actions).  Second half (refuted by `c1_counterexample`): the
claim's "the empty/absent result occurs exactly when no goal is reachable"
fails for BFS, which raises an `IndexError` instead of returning an
empty/absent result when its frontier is exhausted. -/
theorem c1_plan_soundness [DecidableEq σ] (pb : Problem σ α)
    (altb : α → α → Bool) (fuel : ℕ) (p : List α) (cnt : ℕ) :
    (bfs pb fuel = .found p →
      ValidFrom pb pb.initial_state p ∧
      pb.is_goal (execFrom pb pb.initial_state p) = true) ∧
    ((dfsMain pb).1 = some p →
      ValidFrom pb pb.initial_state p ∧
      pb.is_goal (execFrom pb pb.initial_state p) = true) ∧
    (astar pb altb fuel = .found p cnt →
      ValidFrom pb pb.initial_state p ∧
      pb.is_goal (execFrom pb pb.initial_state p) = true) := by
  refine ⟨?_, ?_, ?_⟩
  · intro hrun
    exact (bfsGo_found_spec pb fuel (bfsInit pb) (bfsInit_inv pb) p hrun).1
  · intro hrun
    have hspec := (dfs_spec pb 45 [] (by simp)).2 pb.initial_state
      {pb.initial_state}
    obtain ⟨suf, h1, h2, h3, _, _⟩ := hspec.2 p hrun
    rw [List.nil_append] at h1
    subst h1
    exact ⟨h2, h3⟩
  · intro hrun
    refine astarGo_sound pb altb fuel _ _ ?_ p cnt hrun
    intro e he
    have he₂ : e = ⟨pb.heuristic pb.initial_state, [], pb.initial_state, 0⟩ :=
      by simpa using he
    subst he₂
    exact ⟨trivial, rfl, rfl, (Nat.zero_add _).symm⟩

theorem c1_plan_soundness_witness :
    (bfs VacuumProblem 10 = .found ["Suck", "Right", "Suck"] ∧
      ValidFrom VacuumProblem VacuumProblem.initial_state
        ["Suck", "Right", "Suck"] ∧
      VacuumProblem.is_goal (execFrom VacuumProblem
        VacuumProblem.initial_state ["Suck", "Right", "Suck"]) = true) ∧
    ((dfsMain VacuumProblem).1 = some ["Suck", "Right", "Suck"]) ∧
    (astarS VacuumProblem 20 = .found ["Suck", "Right", "Suck"] 7) := by
  have hbfs : bfs VacuumProblem 10 = .found ["Suck", "Right", "Suck"] := by
    decide
  have hdfs : (dfsMain VacuumProblem).1 = some ["Suck", "Right", "Suck"] := by
    simp +decide [dfsMain, dfs, dfsLoop, VacuumProblem]
  have hastar : astarS VacuumProblem 20 =
      .found ["Suck", "Right", "Suck"] 7 := by decide
  have hsound := (c1_plan_soundness VacuumProblem strLtB 10
    ["Suck", "Right", "Suck"] 7).1 hbfs
  exact ⟨⟨hbfs, hsound.1, hsound.2⟩, hdfs, hastar⟩

/-- Claim C1's counterexample: on the boundary problem (no actions, no
reachable goal) DFS and A* do return the explicit absent result, but BFS
terminates by raising `IndexError` — refuting "the empty/absent result
occurs exactly when no goal is reachable" as a statement about all three
strategies. -/
theorem c1_counterexample :
    bfs emptyActionsProblem 5 = .fault ∧
    (dfsMain emptyActionsProblem).1 = none ∧
    astarS emptyActionsProblem 5 = .exhausted 1 := by
  refine ⟨by decide, ?_, by decide⟩
  simp +decide [dfsMain, dfs, dfsLoop, emptyActionsProblem]

/-- Claim C2, corrected by adding the hypothesis that the initial state is
not itself a goal (see `c2_counterexample`): whenever `bfs` returns a plan,
its length is minimal among all valid action sequences leading from the
initial state to a goal state. -/
theorem c2_bfs_minimal [DecidableEq σ] (pb : Problem σ α) (fuel : ℕ)
    (p : List α) (hgin : pb.is_goal pb.initial_state = false)
    (hrun : bfs pb fuel = .found p) :
    ∀ w, ValidFrom pb pb.initial_state w →
      pb.is_goal (execFrom pb pb.initial_state w) = true →
      p.length ≤ w.length :=
  (bfsGo_found_spec pb fuel (bfsInit pb) (bfsInit_inv pb) p hrun).2 hgin

theorem c2_bfs_minimal_witness :
    VacuumProblem.is_goal VacuumProblem.initial_state = false ∧
    bfs VacuumProblem 10 = .found ["Suck", "Right", "Suck"] ∧
    ValidFrom VacuumProblem VacuumProblem.initial_state
      ["Suck", "Right", "Suck"] ∧
    VacuumProblem.is_goal (execFrom VacuumProblem
      VacuumProblem.initial_state ["Suck", "Right", "Suck"]) = true ∧
    (["Suck", "Right", "Suck"] : List String).length ≤
      (["Suck", "Right", "Suck"] : List String).length := by
  refine ⟨by decide, by decide, by decide, by decide, ?_⟩
  exact c2_bfs_minimal VacuumProblem 10 ["Suck", "Right", "Suck"]
    (by decide) (by decide) ["Suck", "Right", "Suck"] (by decide) (by decide)

/-- Claim C2's counterexample: on a problem whose initial state already
satisfies `is_goal` (with a self-loop), `bfs` does not return the empty
plan — it never goal-tests the initial state and returns the one-action
plan `["a"]`, even though the empty sequence (length 0) already sits at a
goal. -/
theorem c2_counterexample :
    selfLoopGoalProblem.is_goal selfLoopGoalProblem.initial_state = true ∧
    bfs selfLoopGoalProblem 2 = .found ["a"] ∧
    ValidFrom selfLoopGoalProblem selfLoopGoalProblem.initial_state [] ∧
    selfLoopGoalProblem.is_goal (execFrom selfLoopGoalProblem
      selfLoopGoalProblem.initial_state []) = true ∧
    ¬((["a"] : List String).length ≤ ([] : List String).length) := by
  decide

/-- Claim C3, corrected.  The source `astar` shares one visited set across
all frontier entries and deduplicates at generation time, which loses
cheaper later-found paths to an already-recorded state, so an admissible
and consistent heuristic is *not* enough for optimality
(`c3_counterexample`).  What does hold, matching the spec's own "tree-like"
alternative: on a problem where every state is reachable from the initial
state by at most one valid action sequence, an admissible heuristic makes
the returned plan cost-minimal among all valid goal-reaching sequences. -/
theorem c3_astar_tree_optimal [DecidableEq σ] (pb : Problem σ α)
    (altb : α → α → Bool) (fuel : ℕ) (p : List α) (cnt : ℕ)
    (hadm : Admissible pb) (htree : TreeLike pb)
    (hrun : astar pb altb fuel = .found p cnt) :
    ∀ w, ValidFrom pb pb.initial_state w →
      pb.is_goal (execFrom pb pb.initial_state w) = true →
      pathCost pb pb.initial_state p ≤ pathCost pb pb.initial_state w := by
  intro w hwv hwg
  refine astarGo_tree_optimal pb altb hadm htree fuel _ _ ?_ ?_ p cnt hrun
    w hwv hwg
  · intro e he
    have he₂ : e = ⟨pb.heuristic pb.initial_state, [], pb.initial_state, 0⟩ :=
      by simpa using he
    subst he₂
    exact ⟨trivial, rfl, rfl, (Nat.zero_add _).symm⟩
  · refine ⟨Finset.mem_singleton_self _, ?_⟩
    intro s hs
    have hs₂ : s = pb.initial_state := Finset.mem_singleton.mp hs
    subst hs₂
    exact Or.inl ⟨⟨pb.heuristic pb.initial_state, [], pb.initial_state, 0⟩,
      List.mem_singleton_self _, rfl⟩

theorem c3_astar_tree_optimal_witness :
    Admissible chainProblem ∧ TreeLike chainProblem ∧
    astarS chainProblem 5 = .found ["a"] 2 ∧
    ValidFrom chainProblem chainProblem.initial_state ["a"] ∧
    chainProblem.is_goal (execFrom chainProblem chainProblem.initial_state
      ["a"]) = true ∧
    pathCost chainProblem chainProblem.initial_state ["a"] ≤
      pathCost chainProblem chainProblem.initial_state ["a"] := by
  have hadm : Admissible chainProblem := by
    intro s p _ _
    simp [chainProblem]
  have htree : TreeLike chainProblem := chainProblem_treeLike
  have hrun : astarS chainProblem 5 = .found ["a"] 2 := by decide
  exact ⟨hadm, htree, hrun, by decide, by decide,
    c3_astar_tree_optimal chainProblem strLtB 5 ["a"] 2 hadm htree hrun
      ["a"] (by decide) (by decide)⟩

/-- Claim C3's counterexample: `diamondProblem` has unit costs and a
consistent (hence admissible; its goal-state heuristic is 0) heuristic, yet
`astar` returns the plan `["p1", "p", "c", "g"]` of total cost 4 while the
valid plan `["q", "c", "g"]` reaches the goal at total cost 3: the first
goal extracted is not cost-minimal. -/
theorem c3_counterexample :
    Consistent diamondProblem ∧ Admissible diamondProblem ∧
    astarS diamondProblem 20 = .found ["p1", "p", "c", "g"] 6 ∧
    ValidFrom diamondProblem diamondProblem.initial_state ["q", "c", "g"] ∧
    diamondProblem.is_goal (execFrom diamondProblem
      diamondProblem.initial_state ["q", "c", "g"]) = true ∧
    pathCost diamondProblem diamondProblem.initial_state ["q", "c", "g"] = 3 ∧
    pathCost diamondProblem diamondProblem.initial_state
      ["p1", "p", "c", "g"] = 4 := by
  have hcons : Consistent diamondProblem := by
    unfold Consistent
    decide
  refine ⟨hcons, admissible_of_consistent diamondProblem hcons (by decide),
    by decide, by decide, by decide, by decide, by decide⟩

/-- Claim C4, corrected: on any problem whose initial state offers no
actions and is not a goal (the spec's boundary problem), DFS and A* do
report no-solution immediately as an explicit absent result, but BFS does
not — after expanding the seed entry it indexes past the end of `visited`
and raises `IndexError` (the `fault` outcome), for any remaining fuel. -/
theorem c4_exhaustion_behavior [DecidableEq σ] (pb : Problem σ α)
    (altb : α → α → Bool) (n : ℕ)
    (hacts : pb.available_actions pb.initial_state = [])
    (hgin : pb.is_goal pb.initial_state = false) :
    (dfsMain pb).1 = none ∧
    astar pb altb (n + 2) = .exhausted 1 ∧
    bfs pb (n + 2) = .fault := by
  refine ⟨?_, ?_, ?_⟩
  · rw [dfsMain, dfs, if_neg (by simp [hgin]), hacts, dfsLoop]
  · have h1 : astarGo pb altb (n + 1) ([] : List (AEntry σ α))
        {pb.initial_state} = .exhausted 1 := by
      rw [astarGo]
      simp
    rw [astar, astarGo]
    simp only [popMin, hgin, hacts, astarPush, Bool.false_eq_true,
      if_false]
    exact h1
  · have h1 : bfsStep pb (bfsInit pb) =
        .cont ⟨[([], pb.initial_state)], ∅, 1⟩ := by
      rw [bfsStep]
      simp [bfsInit, hacts, bfsExpand]
    have h2 : bfsStep pb
        (⟨[([], pb.initial_state)], ∅, 1⟩ : BfsConfig σ α) = .fault := by
      rw [bfsStep]
      simp
    show bfsGo pb (n + 1 + 1) (bfsInit pb) = .fault
    rw [bfsGo, h1]
    dsimp only
    rw [bfsGo, h2]

theorem c4_exhaustion_behavior_witness :
    emptyActionsProblem.available_actions emptyActionsProblem.initial_state
      = [] ∧
    emptyActionsProblem.is_goal emptyActionsProblem.initial_state = false ∧
    (dfsMain emptyActionsProblem).1 = none ∧
    astarS emptyActionsProblem 2 = .exhausted 1 ∧
    bfs emptyActionsProblem 2 = .fault := by
  have h := c4_exhaustion_behavior emptyActionsProblem strLtB 0
    (by decide) (by decide)
  exact ⟨by decide, by decide, h.1, h.2.1, h.2.2⟩

/-- Claim C4's counterexample: on the spec's boundary problem BFS raises
`IndexError` rather than returning the explicit empty/absent result the
claim requires of all three strategies. -/
theorem c4_counterexample :
    emptyActionsProblem.available_actions emptyActionsProblem.initial_state
      = [] ∧
    emptyActionsProblem.is_goal emptyActionsProblem.initial_state = false ∧
    bfs emptyActionsProblem 2 = .fault ∧
    bfs emptyActionsProblem 2 ≠ .found [] := by
  decide

/-- Claim C5, corrected: each A* frontier entry does own its action
sequence (every enqueued route is a fresh extension `route ++ [a]` of the
expanded entry's route), but there is no per-entry visited-set snapshot:
the source stores the one shared set object into every entry, so the
visited set is a single structure that expansion grows in place — a
successor recorded by one expansion is excluded from every later expansion
of any entry, and pending entries are never removed or altered by an
expansion. -/
theorem c5_astar_shared_set [DecidableEq σ] (pb : Problem σ α) (st : σ)
    (route : List α) (g : ℕ) (acts : List α) (q : List (AEntry σ α))
    (t : Finset σ) :
    t ⊆ (astarPush pb st route g acts q t).2 ∧
    (∀ e ∈ q, e ∈ (astarPush pb st route g acts q t).1) ∧
    (∀ e ∈ (astarPush pb st route g acts q t).1, e ∈ q ∨
      ∃ a ∈ acts, e.route = route ++ [a] ∧
        e.state ∈ (astarPush pb st route g acts q t).2) := by
  obtain ⟨i1, i2, i3, i4, i5⟩ := astarPush_spec pb st route g acts q t
  refine ⟨i2, i1, ?_⟩
  intro e he
  rcases i4 e he with he₂ | ⟨a, ha, rfl⟩
  · exact Or.inl he₂
  · exact Or.inr ⟨a, ha, rfl, i3 a ha⟩

theorem c5_astar_shared_set_witness :
    ({((0 : ℕ), true, true)} : Finset (ℕ × Bool × Bool)) ⊆
      (astarPush VacuumProblem (0, true, true) [] 0 ["Left", "Suck", "Right"]
        [⟨2, [], (0, true, true), 0⟩] {(0, true, true)}).2 ∧
    (⟨2, [], (0, true, true), 0⟩ : AEntry (ℕ × Bool × Bool) String) ∈
      (astarPush VacuumProblem (0, true, true) [] 0 ["Left", "Suck", "Right"]
        [⟨2, [], (0, true, true), 0⟩] {(0, true, true)}).1 ∧
    ((⟨2, ["Suck"], (0, false, true), 1⟩ : AEntry (ℕ × Bool × Bool) String)
        ∈ [(⟨2, [], (0, true, true), 0⟩ : AEntry (ℕ × Bool × Bool) String)] ∨
      ∃ a ∈ ["Left", "Suck", "Right"],
        (["Suck"] : List String) = [] ++ [a] ∧
        ((0 : ℕ), false, true) ∈
          (astarPush VacuumProblem (0, true, true) [] 0
            ["Left", "Suck", "Right"] [⟨2, [], (0, true, true), 0⟩]
            {(0, true, true)}).2) := by
  have h := c5_astar_shared_set VacuumProblem (0, true, true) [] 0
    ["Left", "Suck", "Right"] [⟨2, [], (0, true, true), 0⟩]
    {(0, true, true)}
  exact ⟨h.1, h.2.1 _ (by decide),
    h.2.2 ⟨2, ["Suck"], (0, false, true), 1⟩ (by decide)⟩

/-- Claim C5's counterexample: were each frontier entry to own its own
visited-set snapshot (the spec-modelled `astarSnap`), the vacuum-world
search would report 4 visited states on return; the source `astar` reports
7, the size of the single set shared by all entries. -/
theorem c5_counterexample :
    astarS VacuumProblem 20 = .found ["Suck", "Right", "Suck"] 7 ∧
    astarSnapS VacuumProblem 20 = .found ["Suck", "Right", "Suck"] 4 ∧
    (7 : ℕ) ≠ 4 := by
  decide

/-- Claim C6, corrected: contrary to the claim, `bfs` does *not* seed its
visited set with the initial state — `taken_states` starts empty, and the
initial state is the one state that can be enqueued on the frontier twice
(at seeding and once more when rediscovered, see `c6_counterexample`).
What does hold: a state is added to the visited set exactly once, at first
discovery (the set is exactly the states of the entries appended after the
seed, and those are pairwise distinct), and the set only ever grows across
iterations. -/
theorem c6_bfs_taken_set [DecidableEq σ] (pb : Problem σ α)
    (c c₂ : BfsConfig σ α) (htk : BfsTakenInv c)
    (hstep : bfsStep pb c = .cont c₂) :
    ((bfsInit pb).taken = ∅ ∧ BfsTakenInv (bfsInit pb)) ∧
    BfsTakenInv c₂ ∧ c.taken ⊆ c₂.taken := by
  refine ⟨⟨rfl, ?_, ?_⟩, bfsStep_taken_inv pb htk hstep⟩
  · simp [bfsInit]
  · simp [bfsInit]

theorem c6_bfs_taken_set_witness :
    BfsTakenInv (bfsInit VacuumProblem) ∧
    bfsStep VacuumProblem (bfsInit VacuumProblem) = .cont vacuumBfs1 ∧
    BfsTakenInv vacuumBfs1 ∧
    (bfsInit VacuumProblem).taken ⊆ vacuumBfs1.taken := by
  have htk : BfsTakenInv (bfsInit VacuumProblem) := ⟨rfl, by decide⟩
  have hstep : bfsStep VacuumProblem (bfsInit VacuumProblem) =
      .cont vacuumBfs1 := rfl
  have h := c6_bfs_taken_set VacuumProblem _ _ htk hstep
  exact ⟨htk, hstep, h.2.1, h.2.2⟩

/-- Claim C6's counterexample: `taken_states` starts empty rather than
seeded with the initial state, and after the first loop iteration on the
vacuum world the frontier (`visited`) holds the initial state twice — once
as the seed entry and once re-enqueued after its rediscovery via `Left`. -/
theorem c6_counterexample :
    (bfsInit VacuumProblem).taken = ∅ ∧
    bfsStep VacuumProblem (bfsInit VacuumProblem) = .cont vacuumBfs1 ∧
    (vacuumBfs1.visited.map Prod.snd).count ((0 : ℕ), true, true) = 2 :=
  ⟨rfl, rfl, by decide⟩

/-- Claim C9: the two concrete vacuum-world A* runs of the lab2 notebook.
With the admissible heuristic (count of dirty rooms) `astar` returns
`[Suck, Right, Suck]` reporting exactly 7 distinct visited states; with the
inadmissible heuristic `10 ×` count it returns the same (valid,
goal-reaching) plan while reporting only 5 visited states. -/
theorem c9_vacuum_astar :
    astarS VacuumProblem 20 = .found ["Suck", "Right", "Suck"] 7 ∧
    astarS VacuumProblem2 20 = .found ["Suck", "Right", "Suck"] 5 ∧
    5 < 7 ∧
    ValidFrom VacuumProblem VacuumProblem.initial_state
      ["Suck", "Right", "Suck"] ∧
    VacuumProblem.is_goal (execFrom VacuumProblem
      VacuumProblem.initial_state ["Suck", "Right", "Suck"]) = true ∧
    ValidFrom VacuumProblem2 VacuumProblem2.initial_state
      ["Suck", "Right", "Suck"] ∧
    VacuumProblem2.is_goal (execFrom VacuumProblem2
      VacuumProblem2.initial_state ["Suck", "Right", "Suck"]) = true := by
  decide

/-! ## The sliding-puzzle swap is a permutation -/

theorem cons_set_perm (d x : β) :
    ∀ (xs : List β) (k : ℕ), k < xs.length →
      (xs.getD k d :: xs.set k x).Perm (x :: xs) := by
  intro xs
  induction xs with
  | nil =>
      intro k hk
      simp at hk
  | cons y ys ih =>
      intro k hk
      cases k with
      | zero =>
          simp only [List.getD_cons_zero, List.set_cons_zero]
          exact List.Perm.swap x y ys
      | succ m =>
          simp only [List.getD_cons_succ, List.set_cons_succ]
          refine (List.Perm.swap y (ys.getD m d) (ys.set m x)).trans ?_
          refine ((ih m (by simpa using hk)).cons y).trans ?_
          exact List.Perm.swap x y ys

theorem set_set_swap_perm (d : β) :
    ∀ (l : List β) (i j : ℕ), i < l.length → j < l.length →
      ((l.set i (l.getD j d)).set j (l.getD i d)).Perm l := by
  intro l
  induction l with
  | nil =>
      intro i j hi _
      simp at hi
  | cons x xs ih =>
      intro i j hi hj
      cases i with
      | zero =>
          cases j with
          | zero => simp
          | succ m =>
              simp only [List.getD_cons_zero, List.getD_cons_succ,
                List.set_cons_zero, List.set_cons_succ]
              exact cons_set_perm d x xs m (by simpa using hj)
      | succ n =>
          cases j with
          | zero =>
              simp only [List.getD_cons_zero, List.getD_cons_succ,
                List.set_cons_succ, List.set_cons_zero]
              exact cons_set_perm d x xs n (by simpa using hi)
          | succ m =>
              simp only [List.getD_cons_succ, List.set_cons_succ]
              exact (ih n m (by simpa using hi) (by simpa using hj)).cons x

theorem puzzle_swap_wf {p t : ℕ} {b : List ℕ} (hlen : b.length = 9)
    (hblank : b.getD p 0 = 0) (hperm : b.Perm (List.range 9))
    (hp : p < 9) (ht : t < 9) :
    PuzzleWF (t, (b.set p (b.getD t 0)).set t (b.getD p 0)) := by
  refine ⟨by omega, by simp [hlen], ?_, ?_⟩
  · have ht₂ : t < ((b.set p (b.getD t 0)).set t (b.getD p 0)).length := by
      simp only [List.length_set, hlen]
      exact ht
    rw [List.getD_eq_getElem _ _ ht₂, List.getElem_set_self ht₂]
    exact hblank
  · refine (set_set_swap_perm 0 b p t ?_ ?_).trans hperm
    · rw [hlen]
      exact hp
    · rw [hlen]
      exact ht

/-- Claim C10: `PuzzleProblem` preserves state well-formedness under every
available action.  For a well-formed state (blank index ≤ 8, nine board
cells, `board[blank] = 0`, board a permutation of `0..8`) and any action
offered by `available_actions`, both board indices touched by `do_action`
(the blank position and the swap target) are in bounds, and the resulting
state is again well-formed with the blank at the swap target. -/
theorem c10_puzzle_wf_preserved (s : ℕ × List ℕ) (hwf : PuzzleWF s) :
    ∀ a ∈ PuzzleProblem.available_actions s,
      s.1 < 9 ∧ moveTarget a s.1 < 9 ∧
      PuzzleProblem.do_action s a = (moveTarget a s.1,
        (s.2.set s.1 (s.2.getD (moveTarget a s.1) 0)).set
          (moveTarget a s.1) (s.2.getD s.1 0)) ∧
      PuzzleWF (PuzzleProblem.do_action s a) := by
  obtain ⟨p, b⟩ := s
  obtain ⟨hp, hlen, hblank, hperm⟩ := hwf
  intro a ha
  simp only at hp hlen hblank hperm
  have hsplit : (a = "Right" ∧ p % 3 > 0) ∨ (a = "Left" ∧ p % 3 < 2) ∨
      (a = "Down" ∧ p > 2) ∨ (a = "Up" ∧ p < 6) := by
    simp only [PuzzleProblem, List.mem_append] at ha
    rcases ha with ((h | h) | h) | h
    · by_cases hc : p % 3 > 0
      · rw [if_pos hc] at h
        exact Or.inl ⟨by simpa using h, hc⟩
      · rw [if_neg hc] at h
        simp at h
    · by_cases hc : p % 3 < 2
      · rw [if_pos hc] at h
        exact Or.inr (Or.inl ⟨by simpa using h, hc⟩)
      · rw [if_neg hc] at h
        simp at h
    · by_cases hc : p > 2
      · rw [if_pos hc] at h
        exact Or.inr (Or.inr (Or.inl ⟨by simpa using h, hc⟩))
      · rw [if_neg hc] at h
        simp at h
    · by_cases hc : p < 6
      · rw [if_pos hc] at h
        exact Or.inr (Or.inr (Or.inr ⟨by simpa using h, hc⟩))
      · rw [if_neg hc] at h
        simp at h
  rcases hsplit with ⟨rfl, hc⟩ | ⟨rfl, hc⟩ | ⟨rfl, hc⟩ | ⟨rfl, hc⟩
  · have ht : moveTarget "Right" p < 9 := by
      have hmt : moveTarget "Right" p = p - 1 := rfl
      rw [hmt]
      omega
    have heq : PuzzleProblem.do_action (p, b) "Right" = (moveTarget "Right" p,
        (b.set p (b.getD (moveTarget "Right" p) 0)).set
          (moveTarget "Right" p) (b.getD p 0)) := by
      simp [PuzzleProblem, moveTarget]
    refine ⟨by omega, ht, heq, ?_⟩
    rw [heq]
    exact puzzle_swap_wf hlen hblank hperm (by omega) ht
  · have ht : moveTarget "Left" p < 9 := by
      have hmt : moveTarget "Left" p = p + 1 := rfl
      rw [hmt]
      omega
    have heq : PuzzleProblem.do_action (p, b) "Left" = (moveTarget "Left" p,
        (b.set p (b.getD (moveTarget "Left" p) 0)).set
          (moveTarget "Left" p) (b.getD p 0)) := by
      simp [PuzzleProblem, moveTarget]
    refine ⟨by omega, ht, heq, ?_⟩
    rw [heq]
    exact puzzle_swap_wf hlen hblank hperm (by omega) ht
  · have ht : moveTarget "Down" p < 9 := by
      have hmt : moveTarget "Down" p = p - 3 := rfl
      rw [hmt]
      omega
    have heq : PuzzleProblem.do_action (p, b) "Down" = (moveTarget "Down" p,
        (b.set p (b.getD (moveTarget "Down" p) 0)).set
          (moveTarget "Down" p) (b.getD p 0)) := by
      simp [PuzzleProblem, moveTarget]
    refine ⟨by omega, ht, heq, ?_⟩
    rw [heq]
    exact puzzle_swap_wf hlen hblank hperm (by omega) ht
  · have ht : moveTarget "Up" p < 9 := by
      have hmt : moveTarget "Up" p = p + 3 := rfl
      rw [hmt]
      omega
    have heq : PuzzleProblem.do_action (p, b) "Up" = (moveTarget "Up" p,
        (b.set p (b.getD (moveTarget "Up" p) 0)).set
          (moveTarget "Up" p) (b.getD p 0)) := by
      simp [PuzzleProblem, moveTarget]
    refine ⟨by omega, ht, heq, ?_⟩
    rw [heq]
    exact puzzle_swap_wf hlen hblank hperm (by omega) ht

theorem c10_puzzle_wf_preserved_witness :
    PuzzleWF (4, [7, 2, 4, 5, 0, 6, 8, 3, 1]) ∧
    "Right" ∈ PuzzleProblem.available_actions (4, [7, 2, 4, 5, 0, 6, 8, 3, 1]) ∧
    moveTarget "Right" 4 < 9 ∧
    PuzzleWF (PuzzleProblem.do_action (4, [7, 2, 4, 5, 0, 6, 8, 3, 1])
      "Right") := by
  have hwf : PuzzleWF (4, [7, 2, 4, 5, 0, 6, 8, 3, 1]) := by
    refine ⟨by norm_num, by norm_num, by norm_num, by decide⟩
  have h := c10_puzzle_wf_preserved (4, [7, 2, 4, 5, 0, 6, 8, 3, 1]) hwf
    "Right" (by decide)
  exact ⟨hwf, by decide, h.2.1, h.2.2.2⟩
